import Mathlib

/-!
Verification development for the mind-map application
(App.tsx, components/MindMap.tsx, services/geminiService.ts).

Conventions of the shallow embedding:
- JavaScript numbers are modelled as rationals; node and document
  identifiers and other text are Lean String values.
- Links are stored as id pairs.  The source guards every endpoint access
  with a typeof check that resolves a possibly d3-mutated object back to
  its id, so a link is semantically exactly its (source, target, value)
  triple.
- JavaScript Set and Map values are modelled as membership lists and as
  functions String to Option; insertion order is irrelevant for every
  lookup the source performs.
- The while loops of the source (breadth-first visibility walk,
  depth-first delete walk, ancestor climb, side propagation) are made
  structurally recursive on an explicit fuel argument.  The fuel chosen
  is large enough that it is never exhausted on the tree-shaped inputs
  the theorems quantify over, which is proved, not assumed.
- Array.prototype.sort with a comparator that orders by a key is
  modelled as the stable insertion sort by that key; every stable sort
  computes the same function, so this is faithful to the engine TimSort.
-/

/-! ## Basic data model (types.ts) -/

inductive NodeKind
  | root
  | project
  | document
  | category
deriving DecidableEq

/-- Node record of types.ts restricted to the fields the verified
functions read or write. -/
structure GNode where
  id : String
  name : String := ""
  kind : NodeKind := NodeKind.category
  val : ℚ := 0
  description : Option String := none
  color : Option String := none
  iconType : String := "default"
  level : Option Nat := none
  project : Option String := none
  collapsed : Bool := false
  trunkTier : Option ℚ := none
deriving DecidableEq

/-- Link record: source id, target id, weight. -/
structure GLink where
  source : String
  target : String
  value : ℚ := 1
deriving DecidableEq

structure GraphData where
  nodes : List GNode
  links : List GLink
deriving DecidableEq

/-- nodes.find(n => n.id === i) -/
def findNode (nodes : List GNode) (i : String) : Option GNode :=
  nodes.find? (fun n => n.id == i)

/-- links.filter(l => source(l) === s).map(l => target(l)) : the child
ids reached from s, in link order.  Used by the visibility walk, the
delete walk, the side assignment adjacency and the weight computation,
which all build exactly this list. -/
def childLinkTargets (links : List GLink) (s : String) : List String :=
  (links.filter (fun l => l.source == s)).map (fun l => l.target)

/-- The source of the first link into t (links.find, used where the
source keeps at most one parent per node). -/
def parentOf (links : List GLink) (t : String) : Option String :=
  (links.find? (fun l => l.target == t)).map (fun l => l.source)

/-- The source of the last link into t: lookup in the Map built by
iterating parentMap.set(target, source) over all links, where a later
link overwrites an earlier one. -/
def parentOfLast (links : List GLink) (t : String) : Option String :=
  ((links.filter (fun l => l.target == t)).getLast?).map (fun l => l.source)

/-! ## visibleGraphData (App.tsx lines 85-120)

Breadth-first walk from "root"; the children of a visited node are
enqueued only when the node exists and is not collapsed; the returned
subgraph keeps the nodes and links whose ids were visited. -/

/-- The ids the walk enqueues from a visited id: the child link targets
when the node exists and is not collapsed, nothing otherwise. -/
def visFollow (nodes : List GNode) (links : List GLink) (c : String) : List String :=
  match findNode nodes c with
  | some n => if n.collapsed then [] else childLinkTargets links c
  | none => []

/-- The while loop of visibleGraphData: FIFO queue, a visited set
(modelled as a duplicate-preserving membership list), children pushed at
the back when not yet visited. -/
def bfsLoop (nodes : List GNode) (links : List GLink) :
    Nat → List String → List String → List String
  | 0, _, vis => vis
  | _ + 1, [], vis => vis
  | fuel + 1, c :: rest, vis =>
    let vis2 := if c ∈ vis then vis else vis ++ [c]
    let fresh := (visFollow nodes links c).filter (fun t => decide (t ∉ vis2))
    bfsLoop nodes links fuel (rest ++ fresh) vis2

/-- Fuel that the termination argument shows is never exhausted on the
inputs the theorems quantify over. -/
def walkFuel (g : GraphData) : Nat :=
  g.nodes.length + g.links.length + 1

def visibleGraphData (g : GraphData) : GraphData :=
  let visited := bfsLoop g.nodes g.links (walkFuel g) ["root"] []
  { nodes := g.nodes.filter (fun n => decide (n.id ∈ visited)),
    links := g.links.filter (fun l =>
      decide (l.source ∈ visited) && decide (l.target ∈ visited)) }

/-! ## handleDeleteNode (App.tsx lines 325-362)

Refuses for "root"; otherwise collects the forward-reachable ids from
the deleted id with a stack-driven walk (push at the back, pop from the
back) and filters out the collected nodes and every link touching them.
The stack is modelled with its top at the list head, so the children
pushed in link order are prepended reversed. -/

def dfsLoop (links : List GLink) :
    Nat → List String → List String → List String
  | 0, _, vis => vis
  | _ + 1, [], vis => vis
  | fuel + 1, c :: rest, vis =>
    let vis2 := if c ∈ vis then vis else vis ++ [c]
    let fresh := (childLinkTargets links c).filter (fun t => decide (t ∉ vis2))
    dfsLoop links fuel (fresh.reverse ++ rest) vis2

def handleDeleteNode (nodeId : String) (g : GraphData) : GraphData :=
  if nodeId == "root" then g
  else
    let nodesToDelete := dfsLoop g.links (walkFuel g) [nodeId] []
    { nodes := g.nodes.filter (fun n => decide (n.id ∉ nodesToDelete)),
      links := g.links.filter (fun l =>
        decide (l.source ∉ nodesToDelete) && decide (l.target ∉ nodesToDelete)) }

/-! ## String helpers

The source compares ids with localeCompare and lowercases with
toLowerCase.  Ids and names are compared by code points here; the
kernel-reducible key of a string is its list of character codes, ordered
lexicographically. -/

def strKey (s : String) : List Nat :=
  s.data.map (fun c => c.toNat)

def lexLeB : List Nat → List Nat → Bool
  | [], _ => true
  | _ :: _, [] => false
  | a :: as, b :: bs => if a < b then true else if b < a then false else lexLeB as bs

/-- Code point order on strings, the embedding of localeCompare for the
ascii identifiers the application generates. -/
def strLe (a b : String) : Prop :=
  lexLeB (strKey a) (strKey b) = true

instance : DecidableRel strLe := fun a b => by
  unfold strLe
  infer_instance

/-- toLowerCase, character by character. -/
def lowerStr (s : String) : List Char :=
  s.data.map Char.toLower

/-- needle.isPrefixOf hay over character lists. -/
def isPrefixL : List Char → List Char → Bool
  | [], _ => true
  | _ :: _, [] => false
  | a :: as, b :: bs => a == b && isPrefixL as bs

/-- hay.includes(needle) over character lists. -/
def hasSub (needle : List Char) : List Char → Bool
  | [] => isPrefixL needle []
  | c :: t => isPrefixL needle (c :: t) || hasSub needle t

/-! ## assignSides (MindMap.tsx lines 105-129)

Builds a source-to-targets adjacency from the links, sorts the children
of "root" by id, gives them alternating sides -1, +1 and recursively
propagates the side of each to its whole subtree.  The side map is a
function from id to Option Int. -/

def SideMap : Type := String → Option Int

def setSide (m : SideMap) (k : String) (v : Int) : SideMap :=
  fun x => if x = k then some v else m x

def emptySideMap : SideMap := fun _ => none

/-- The inner recursive propagate: children.forEach(child =>
set(child, side); propagate(child, side)). -/
def propagate (adj : String → List String) :
    Nat → String → Int → SideMap → SideMap
  | 0, _, _, m => m
  | fuel + 1, parentId, side, m =>
    (adj parentId).foldl (fun m2 c => propagate adj fuel c side (setSide m2 c side)) m

/-- adjacency of root, sorted by id; the in-place sort of the source
only affects the order of this one adjacency list. -/
def sortedRootChildren (links : List GLink) : List String :=
  List.insertionSort strLe (childLinkTargets links "root")

def assignSides (nodes : List GNode) (links : List GLink) : SideMap :=
  (sortedRootChildren links).enum.foldl
    (fun m p =>
      let side : Int := if p.1 % 2 = 0 then -1 else 1
      propagate (childLinkTargets links) (links.length + 1) p.2 side
        (setSide m p.2 side))
    emptySideMap

/-! ## makeRng and generateNaturalPath (MindMap.tsx lines 60-89) -/

/-- One step of the seeded linear congruential generator of makeRng:
the updated seed and the value returned for this draw. -/
def rngStep (seed : Nat) : Nat × ℚ :=
  let seed2 := (seed * 9301 + 49297) % 233280
  (seed2, (seed2 : ℚ) / 233280)

/-- Output of generateNaturalPath: the path command (cubic for depth 1,
quadratic otherwise) with its endpoints and control points.  The SVG d
string of the source is the textual formatting of exactly these
numbers. -/
structure PathGen where
  isCubic : Bool
  x1 : ℚ
  y1 : ℚ
  x2 : ℚ
  y2 : ℚ
  cp1x : ℚ
  cp1y : ℚ
  cp2x : ℚ
  cp2y : ℚ
deriving DecidableEq

def generateNaturalPath (x1 y1 x2 y2 : ℚ) (level : Nat) (seed : Nat) : PathGen :=
  if level = 1 then
    let s1 := rngStep seed
    let cp1x := x1 + (x2 - x1) * (35 / 100)
    let cp1y := y1 + (s1.2 * 30 - 15)
    let cp2x := x2 - (x2 - x1) * (20 / 100)
    let s2 := rngStep s1.1
    let bowFactor := 20 + s2.2 * 20
    let cp2y := y2 + bowFactor
    { isCubic := true, x1, y1, x2, y2, cp1x, cp1y, cp2x, cp2y }
  else
    let s1 := rngStep seed
    let cpX := (x1 + x2) / 2 + (s1.2 * 30 - 15)
    let s2 := rngStep s1.1
    let cpY := (y1 + y2) / 2 + (s2.2 * 30 - 15)
    { isCubic := false, x1, y1, x2, y2,
      cp1x := cpX, cp1y := cpY, cp2x := cpX, cp2y := cpY }

/-! ## The d3 rendering effect: node preparation (MindMap.tsx lines 756-798)

Before each simulation re-run the visible nodes are mapped to simulation
nodes: ids already in the persistent position store copy the previous
x, y, vx, vy and pin (fx, fy) forward; the root is re-pinned per layout
mode; a brand new id starts at the canvas center. -/

inductive LayoutMode
  | spider
  | seed
deriving DecidableEq

/-- Previous entry of the persistent position store nodesMapRef. -/
structure SimState where
  x : ℚ
  y : ℚ
  vx : ℚ
  vy : ℚ
  fx : Option ℚ := none
  fy : Option ℚ := none
deriving DecidableEq

/-- Simulation node produced for the next run.  vy is Option because the
branch for a brand new non-root id never sets it. -/
structure SimNode where
  node : GNode
  x : ℚ
  y : ℚ
  vx : ℚ
  vy : Option ℚ
  fx : Option ℚ := none
  fy : Option ℚ := none
  side : Int
deriving DecidableEq

/-- The body of processedNodes.map(d => ...).  total is
data.nodes.length, read inside for the trunk height; groundY is
height - 60 as computed just above in the effect.  The JS expression
sideMap.get(d.id) || 1 is getD 1 because the stored sides are only
-1 or 1, never 0. -/
def remapOne (mode : LayoutMode) (width height : ℚ) (total : Nat)
    (oldStore : String → Option SimState) (sideMap : String → Option Int)
    (d : GNode) : SimNode :=
  let existing := oldStore d.id
  let side := (sideMap d.id).getD 1
  if mode = LayoutMode.seed ∧ d.id = "root" then
    let isSapling := total ≤ 1
    let baseTrunkHeight : ℚ :=
      if isSapling then 150 else min 850 (450 + (total : ℚ) * 15)
    let groundY := height - 60
    let targetRootY := groundY - baseTrunkHeight
    match existing with
    | some ex =>
      { node := d, x := ex.x, y := ex.y, fx := some (width / 2),
        fy := some targetRootY, vx := ex.vx, vy := some ex.vy, side }
    | none =>
      { node := d, fx := some (width / 2), fy := some targetRootY,
        x := width / 2, y := targetRootY, vx := 0, vy := some 0, side }
  else
    match existing with
    | some ex =>
      let fx := if mode = LayoutMode.spider ∧ d.id = "root" then none else ex.fx
      let fy := if mode = LayoutMode.spider ∧ d.id = "root" then none else ex.fy
      { node := d, x := ex.x, y := ex.y, vx := ex.vx, vy := some ex.vy,
        fx := fx, fy := fy, side }
    | none =>
      { node := d, x := width / 2, y := height / 2, vx := 0, vy := none, side }

def remapNodes (mode : LayoutMode) (width height : ℚ)
    (dataNodes : List GNode) (oldStore : String → Option SimState)
    (sideMap : String → Option Int) : List SimNode :=
  dataNodes.map (remapOne mode width height dataNodes.length oldStore sideMap)

/-! ## Trunk tier assignment (MindMap.tsx lines 759-770, Seed mode)

The nodes other than root that share a link with root in either
direction, sorted by id, receive trunkTier 0.2 + ratio * 0.55 with
ratio i / (count - 1), or 0.5 for a single child. -/

def isLevel1 (links : List GLink) (n : GNode) : Bool :=
  n.id != "root" && links.any (fun l =>
    (l.source == "root" && l.target == n.id) ||
    (l.target == "root" && l.source == n.id))

def trunkTierOf (count : Nat) (i : Nat) : ℚ :=
  let ratio : ℚ := if 1 < count then (i : ℚ) / ((count : ℚ) - 1) else 1 / 2
  2 / 10 + ratio * (55 / 100)

def level1Sorted (nodes : List GNode) (links : List GLink) : List GNode :=
  List.insertionSort (fun a b : GNode => strLe a.id b.id)
    (nodes.filter (isLevel1 links))

def assignTrunkTiers (nodes : List GNode) (links : List GLink) : List GNode :=
  let sorted := level1Sorted nodes links
  let tiers : List (String × ℚ) :=
    sorted.enum.map (fun p => (p.2.id, trunkTierOf sorted.length p.1))
  nodes.map (fun n =>
    match tiers.find? (fun p => p.1 == n.id) with
    | some p => { n with trunkTier := some p.2 }
    | none => n)

/-- forceLink distance callback in Seed mode (MindMap.tsx lines
814-824): a root-attached edge whose resolved target carries a
trunkTier gets 30 + tier * (90 - 30), every other edge gets 100. -/
def linkDistanceSeed (nodes : List GNode) (l : GLink) : ℚ :=
  match findNode nodes l.target with
  | some t =>
    if l.source == "root" then
      match t.trunkTier with
      | some tier => 30 + tier * (90 - 30)
      | none => 100
    else 100
  | none => 100

/-! ## nodeWeights (MindMap.tsx lines 365-399)

weight(id) = 1 + sum of the weights of the child link targets; the
memoisation cache of the source computes the same values as the plain
recursion on tree-shaped graphs, so the recursion is embedded directly,
with fuel standing for the finite recursion depth. -/

def getWeight (links : List GLink) : Nat → String → Nat
  | 0, _ => 1
  | fuel + 1, i =>
    1 + ((childLinkTargets links i).map (getWeight links fuel)).sum

/-- Weight of a node for one visible-graph snapshot. -/
def weightOf (g : GraphData) (i : String) : Nat :=
  getWeight g.links (g.links.length + 1) i

/-- The id list of the subtree below i in traversal order; its length
is getWeight at the same fuel. -/
def subtreeIds (links : List GLink) : Nat → String → List String
  | 0, i => [i]
  | fuel + 1, i =>
    i :: (childLinkTargets links i).flatMap (subtreeIds links fuel)

/-! ## calculateRelevance and the local fallback
(geminiService.ts lines 8-56 and 180-202)

Dates are modelled at day granularity: doc.date and the current instant
are integer day numbers, so the millisecond difference divided by a day
and ceiled is exactly their absolute difference. -/

structure Document where
  id : String
  title : String
  content : String
  project : String := ""
  dateDays : ℤ := 0
  tags : List String := []
deriving DecidableEq

/-- query.toLowerCase().split(regex of whitespace runs): splitting at
every whitespace character; the empty fragments produced by runs are
discarded by the length filter applied right after, exactly as in the
source. -/
def splitWsAux : List Char → List Char → List (List Char)
  | [], acc => [acc.reverse]
  | c :: cs, acc =>
    if c.isWhitespace then acc.reverse :: splitWsAux cs []
    else splitWsAux cs (c :: acc)

def splitWs (cs : List Char) : List (List Char) :=
  splitWsAux cs []

def calculateRelevance (doc : Document) (query : String) (nowDays : ℤ) : ℚ :=
  let terms := (splitWs (lowerStr query)).filter (fun t => 2 < t.length)
  if terms.length = 0 then 0
  else
    let titleLower := lowerStr doc.title
    let contentLower := lowerStr doc.content
    let tagsLower := doc.tags.map lowerStr
    let score : ℚ :=
      (terms.map (fun term =>
        (if hasSub term titleLower then (10 : ℚ) else 0)
        + ((tagsLower.filter (fun tg => hasSub term tg)).length : ℚ) * 8
        + (if hasSub term contentLower then (1 : ℚ) else 0))).sum
    if score = 0 then 0
    else
      let diffDays : ℚ := ((nowDays - doc.dateDays).natAbs : ℚ)
      score + max 0 (10 * (1 - diffDays / 365))

/-- documents.map(score).filter(positive).sort(descending), the ranking
computed before the service call and reused by the catch branch. -/
def scoredDocs (documents : List Document) (query : String) (nowDays : ℤ) :
    List (Document × ℚ) :=
  List.insertionSort (fun a b : Document × ℚ => b.2 ≤ a.2)
    ((documents.map (fun d => (d, calculateRelevance d query nowDays))).filter
      (fun p => decide (0 < p.2)))

/-- The catch branch of searchAndGenerateGraph: top 6 scored documents
become DOCUMENT nodes, each linked from root. -/
def fallbackGraph (query : String) (documents : List Document) (nowDays : ℤ) :
    GraphData :=
  let topMatches := ((scoredDocs documents query nowDays).take 6).map (fun p => p.1)
  { nodes := topMatches.map (fun d =>
      { id := d.id, name := d.title, kind := NodeKind.document, val := 10,
        description := some (String.mk (d.content.data.take 50 ++ "...".data)) }),
    links := topMatches.map (fun d =>
      { source := "root", target := d.id, value := 1 }) }

/-- Node color palette of App.tsx. -/
def nodeColors : List String :=
  ["#f43f5e", "#d946ef", "#8b5cf6", "#6366f1", "#0ea5e9",
   "#10b981", "#84cc16", "#eab308", "#f97316"]

/-- handleSearch lines 269-284: the fresh root node built from the
current root name (default names are replaced by the query; an empty
name falls back to the query through the JS or-chain). -/
def searchRootNode (query : String) (mode : LayoutMode) (g : GraphData) : GNode :=
  let currentRoot := findNode g.nodes "root"
  let isDefaultName :=
    match currentRoot with
    | some r =>
      r.name == "Grow your idea tree" || r.name == "MindSearch AI" ||
        r.name == "Grow your idea starting here"
    | none => false
  let rootName :=
    if isDefaultName then query
    else
      match currentRoot with
      | some r => if r.name = "" then query else r.name
      | none => query
  { id := "root", name := rootName, kind := NodeKind.root,
    val := if mode = LayoutMode.seed then 30 else 25,
    description := some "Search Query",
    color := some (if mode = LayoutMode.seed then "#22c55e" else "#ef4444"),
    iconType := if mode = LayoutMode.seed then "tree" else "default",
    level := some 0, collapsed := false }

/-- handleSearch lines 287-295: recoloring of one result node, indexed
by its position in the filtered array. -/
def searchRecolor (p : Nat × GNode) : GNode :=
  { p.2 with
    color := some (if p.2.kind = NodeKind.project then "#22c55e"
      else nodeColors[p.1 % nodeColors.length]!),
    iconType := if p.2.kind = NodeKind.project then "folder" else "file",
    level := some 1,
    project := some (if p.2.kind = NodeKind.project then p.2.name else "General"),
    collapsed := false }

/-- handleSearch lines 286-295: the result nodes other than root,
recolored and leveled with their index in the filtered array. -/
def searchChildNodes (result : GraphData) : List GNode :=
  (result.nodes.filter (fun n => n.id != "root")).enum.map searchRecolor

/-- handleSearch lines 296-301: result links with non-string or root
sources renormalised to root. -/
def searchLinksRaw (result : GraphData) : List GLink :=
  result.links.map (fun l =>
    { source := if l.source ≠ "root" then l.source else "root",
      target := l.target, value := l.value })

/-- handleSearch lines 286-306: the new master graph built from a
service (or fallback) result: fresh root node, the recolored result
nodes, links pruned against the new node id set. -/
def applySearchResult (query : String) (mode : LayoutMode) (g : GraphData)
    (result : GraphData) : GraphData :=
  let newNodes := searchRootNode query mode g :: searchChildNodes result
  let nodeIds := newNodes.map (fun n => n.id)
  { nodes := newNodes,
    links := (searchLinksRaw result).filter (fun l =>
      decide (l.source ∈ nodeIds) && decide (l.target ∈ nodeIds)) }

/-! ## handleSearch, local branch (App.tsx lines 208-260)

A submitted query is first matched against the existing graph; when a
node matches, the ancestors of the best-ranked match are expanded and
the match is selected, and the query service is never reached. -/

inductive SearchAction
  | noop
  | localSel (g : GraphData) (sel : GNode)
  | service (q : String)
deriving DecidableEq

/-- n.name or n.description contains the lowercased query. -/
def nodeMatches (lq : List Char) (n : GNode) : Bool :=
  hasSub lq (lowerStr n.name) ||
    (match n.description with
     | some d2 => hasSub lq (lowerStr d2)
     | none => false)

/-- Rank used by the match comparator: 0 for an exact name match, 1 for
a name starting with the query, 2 otherwise.  The source comparator
returns exactly the sign of the rank difference, so the stable sort by
this rank is the embedding of matches.sort(comparator). -/
def rankOf (lq : List Char) (n : GNode) : Nat :=
  if lowerStr n.name = lq then 0
  else if isPrefixL lq (lowerStr n.name) then 1
  else 2

/-- The while loop climbing parentMap from the best match, collecting
the ancestor ids; a missing or empty parent id stops the climb (an
empty string is falsy in the source). -/
def climb (links : List GLink) : Nat → String → List String → List String
  | 0, _, acc => acc
  | fuel + 1, curr, acc =>
    if curr = "" then acc
    else
      match parentOfLast links curr with
      | none => acc
      | some pid =>
        if pid = "" then acc
        else climb links fuel pid (if pid ∈ acc then acc else acc ++ [pid])

/-- The synchronous decision of handleSearch: bail out on a blank query,
otherwise either resolve locally (expanding the ancestors of the best
match and selecting it) or fall through to the query service. -/
def handleSearchStep (query : String) (g : GraphData) : SearchAction :=
  if query.data.all (fun c => c.isWhitespace) then SearchAction.noop
  else
    let lq := lowerStr query
    let matchList := g.nodes.filter (nodeMatches lq)
    let sorted := List.insertionSort
      (fun a b : GNode => rankOf lq a ≤ rankOf lq b) matchList
    match sorted.head? with
    | some best =>
      let toExpand := climb g.links (g.links.length + 1) best.id []
      SearchAction.localSel
        { g with nodes := g.nodes.map (fun n =>
            if decide (n.id ∈ toExpand) then { n with collapsed := false } else n) }
        best
    | none => SearchAction.service query

/-! ## Reachability along links (specification side) -/

/-- Reachability along an abstract successor function. -/
inductive FReach (follow : String → List String) : String → String → Prop
  | refl (a : String) : FReach follow a a
  | tail {a b c : String} : FReach follow a b → c ∈ follow b → FReach follow a c

/-- Forward reachability along the links. -/
def Reach (links : List GLink) : String → String → Prop :=
  FReach (childLinkTargets links)

/-- The nodes reachable from root through a chain of non-collapsed
ancestors: root is visible, and a child of a visible, existing,
non-collapsed node is visible.  This is the wording of the
specification, independent of the breadth-first implementation. -/
inductive VisibleFromRoot (nodes : List GNode) (links : List GLink) : String → Prop
  | root : VisibleFromRoot nodes links "root"
  | child {p c : String} (hp : VisibleFromRoot nodes links p)
      (hn : ∃ n, findNode nodes p = some n ∧ n.collapsed = false)
      (hl : ∃ l ∈ links, l.source = p ∧ l.target = c) :
      VisibleFromRoot nodes links c

def nodeIds (g : GraphData) : List String :=
  g.nodes.map (fun n => n.id)

/-- The node set, link set and collapse assignment form a tree rooted at
"root": distinct ids, link endpoints are node ids, at most one incoming
link per id, a depth function increasing along links (whence acyclicity)
and bounded by the link count, and every node reachable from root. -/
structure IsTree (g : GraphData) (dep : String → Nat) : Prop where
  rootMem : "root" ∈ nodeIds g
  nodupIds : (nodeIds g).Nodup
  srcMem : ∀ l ∈ g.links, l.source ∈ nodeIds g
  tgtMem : ∀ l ∈ g.links, l.target ∈ nodeIds g
  uniqTarget : g.links.Pairwise (fun l1 l2 => l1.target ≠ l2.target)
  depRoot : dep "root" = 0
  depLink : ∀ l ∈ g.links, dep l.target = dep l.source + 1
  depLe : ∀ l ∈ g.links, dep l.target ≤ g.links.length
  reachAll : ∀ i ∈ nodeIds g, Reach g.links "root" i

lemma mem_childLinkTargets {links : List GLink} {s t : String} :
    t ∈ childLinkTargets links s ↔ ∃ l ∈ links, l.source = s ∧ l.target = t := by
  simp only [childLinkTargets, List.mem_map, List.mem_filter, beq_iff_eq]
  constructor
  · rintro ⟨l, ⟨hl, hs⟩, ht⟩
    exact ⟨l, hl, hs, ht⟩
  · rintro ⟨l, hl, hs, ht⟩
    exact ⟨l, ⟨hl, hs⟩, ht⟩

lemma IsTree.target_inj {g : GraphData} {dep : String → Nat} (ht : IsTree g dep)
    {l1 l2 : GLink} (h1 : l1 ∈ g.links) (h2 : l2 ∈ g.links)
    (h : l1.target = l2.target) : l1 = l2 := by
  by_contra hne
  have hsymm : Symmetric (fun l1 l2 : GLink => l1.target ≠ l2.target) :=
    fun a b hab => fun hba => hab hba.symm
  exact ht.uniqTarget.forall hsymm h1 h2 hne h

lemma IsTree.childTargets_nodup {g : GraphData} {dep : String → Nat}
    (ht : IsTree g dep) (s : String) : (childLinkTargets g.links s).Nodup := by
  unfold childLinkTargets
  rw [List.Nodup, List.pairwise_map]
  exact List.Pairwise.sublist (List.filter_sublist g.links) ht.uniqTarget

lemma IsTree.child_uniq {g : GraphData} {dep : String → Nat} (ht : IsTree g dep)
    {c1 c2 t : String} (h1 : t ∈ childLinkTargets g.links c1)
    (h2 : t ∈ childLinkTargets g.links c2) : c1 = c2 := by
  rcases mem_childLinkTargets.1 h1 with ⟨l1, hl1, hs1, htg1⟩
  rcases mem_childLinkTargets.1 h2 with ⟨l2, hl2, hs2, htg2⟩
  have : l1 = l2 := ht.target_inj hl1 hl2 (htg1.trans htg2.symm)
  rw [← hs1, ← hs2, this]

lemma IsTree.child_dep {g : GraphData} {dep : String → Nat} (ht : IsTree g dep)
    {c t : String} (h : t ∈ childLinkTargets g.links c) : dep t = dep c + 1 := by
  rcases mem_childLinkTargets.1 h with ⟨l, hl, hs, htg⟩
  have := ht.depLink l hl
  rw [htg, hs] at this
  exact this

lemma IsTree.child_mem_ids {g : GraphData} {dep : String → Nat} (ht : IsTree g dep)
    {c t : String} (h : t ∈ childLinkTargets g.links c) : t ∈ nodeIds g := by
  rcases mem_childLinkTargets.1 h with ⟨l, hl, _, htg⟩
  rw [← htg]
  exact ht.tgtMem l hl

lemma IsTree.noIntoRoot {g : GraphData} {dep : String → Nat} (ht : IsTree g dep)
    {l : GLink} (hl : l ∈ g.links) : l.target ≠ "root" := by
  intro h
  have := ht.depLink l hl
  rw [h, ht.depRoot] at this
  exact Nat.succ_ne_zero _ this.symm

/-! ## Generic frontier walk and its correctness -/

/-- Common shape of the breadth-first visibility walk and the
depth-first delete walk: pop the head, record it, push the not yet
recorded successors through a scheduler that only reorders. -/
def walkLoop (follow : String → List String)
    (sched : List String → List String → List String) :
    Nat → List String → List String → List String
  | 0, _, vis => vis
  | _ + 1, [], vis => vis
  | fuel + 1, c :: rest, vis =>
    let vis2 := if c ∈ vis then vis else vis ++ [c]
    let fresh := (follow c).filter (fun t => decide (t ∉ vis2))
    walkLoop follow sched fuel (sched rest fresh) vis2

lemma bfsLoop_eq_walkLoop (nodes : List GNode) (links : List GLink) :
    ∀ fuel queue vis, bfsLoop nodes links fuel queue vis =
      walkLoop (visFollow nodes links) (fun r fr => r ++ fr) fuel queue vis := by
  intro fuel
  induction fuel with
  | zero => intro queue vis; rfl
  | succ n ih =>
    intro queue vis
    cases queue with
    | nil => rfl
    | cons c rest =>
      simp only [bfsLoop, walkLoop]
      exact ih _ _

lemma dfsLoop_eq_walkLoop (links : List GLink) :
    ∀ fuel queue vis, dfsLoop links fuel queue vis =
      walkLoop (childLinkTargets links) (fun r fr => fr.reverse ++ r) fuel queue vis := by
  intro fuel
  induction fuel with
  | zero => intro queue vis; rfl
  | succ n ih =>
    intro queue vis
    cases queue with
    | nil => rfl
    | cons c rest =>
      simp only [dfsLoop, walkLoop]
      exact ih _ _

/-- Hypotheses on the successor function under which the walk computes
reachability: successors live in a duplicate-free universe, each id is
the successor of at most one id and in at most one position, and a depth
function increases along successor edges. -/
structure WalkHyps (follow : String → List String) (univ : List String)
    (dep : String → Nat) : Prop where
  sub : ∀ c t, t ∈ follow c → t ∈ univ
  nodupU : univ.Nodup
  nodupF : ∀ c, (follow c).Nodup
  uniq : ∀ c1 c2 t, t ∈ follow c1 → t ∈ follow c2 → c1 = c2
  depF : ∀ c t, t ∈ follow c → dep t = dep c + 1

/-- Loop invariant of the frontier walk. -/
structure WalkInv (follow : String → List String) (univ : List String)
    (start : String) (queue vis : List String) : Prop where
  visU : ∀ v ∈ vis, v ∈ univ
  qU : ∀ q ∈ queue, q ∈ univ
  visNodup : vis.Nodup
  qNodup : queue.Nodup
  disj : ∀ q ∈ queue, q ∉ vis
  qPar : ∀ q ∈ queue, q = start ∨ ∃ p ∈ vis, q ∈ follow p
  sound : ∀ x, x ∈ vis ∨ x ∈ queue → FReach follow start x
  closed : ∀ v ∈ vis, ∀ t ∈ follow v, t ∈ vis ∨ t ∈ queue
  complete : ∀ t, FReach follow start t →
    t ∈ vis ∨ ∃ u ∈ queue, FReach follow u t

lemma freach_trans {follow : String → List String} {a b c : String}
    (h1 : FReach follow a b) (h2 : FReach follow b c) : FReach follow a c := by
  induction h2 with
  | refl => exact h1
  | tail _ hc ih => exact FReach.tail ih hc

lemma freach_dep_le {follow : String → List String} {dep : String → Nat}
    (hdep : ∀ c t, t ∈ follow c → dep t = dep c + 1) {a b : String}
    (h : FReach follow a b) : dep a ≤ dep b := by
  induction h with
  | refl => exact Nat.le_refl _
  | tail _ hc ih =>
    have := hdep _ _ hc
    omega

lemma freach_head {follow : String → List String} {a t : String}
    (h : FReach follow a t) : t = a ∨ ∃ d ∈ follow a, FReach follow d t := by
  induction h with
  | refl => exact Or.inl rfl
  | tail _ hc ih =>
    rcases ih with rfl | ⟨d, hd, hr⟩
    · exact Or.inr ⟨_, hc, FReach.refl _⟩
    · exact Or.inr ⟨d, hd, FReach.tail hr hc⟩

lemma reach_out {follow : String → List String} {queue vis : List String}
    (closed : ∀ v ∈ vis, ∀ t ∈ follow v, t ∈ vis ∨ t ∈ queue)
    {d t : String} (hd : d ∈ vis) (h : FReach follow d t) :
    t ∈ vis ∨ ∃ u ∈ queue, FReach follow u t := by
  induction h with
  | refl => exact Or.inl hd
  | tail _ hc ih =>
    rcases ih with hb | ⟨u, hu, hr⟩
    · rcases closed _ hb _ hc with h1 | h1
      · exact Or.inl h1
      · exact Or.inr ⟨_, h1, FReach.refl _⟩
    · exact Or.inr ⟨u, hu, FReach.tail hr hc⟩

lemma walkInv_perm {follow : String → List String} {univ : List String}
    {start : String} {q1 q2 vis : List String}
    (hq : q1.Perm q2) (inv : WalkInv follow univ start q1 vis) :
    WalkInv follow univ start q2 vis := by
  refine ⟨inv.visU, ?_, inv.visNodup, hq.nodup_iff.1 inv.qNodup, ?_, ?_, ?_, ?_, ?_⟩
  · intro q hqmem; exact inv.qU q (hq.mem_iff.2 hqmem)
  · intro q hqmem; exact inv.disj q (hq.mem_iff.2 hqmem)
  · intro q hqmem; exact inv.qPar q (hq.mem_iff.2 hqmem)
  · intro x hx
    exact inv.sound x (hx.imp id (hq.mem_iff.2))
  · intro v hv t htm
    exact (inv.closed v hv t htm).imp id (hq.mem_iff.1)
  · intro t hrt
    rcases inv.complete t hrt with h | ⟨u, hu, hr⟩
    · exact Or.inl h
    · exact Or.inr ⟨u, hq.mem_iff.1 hu, hr⟩

lemma walkInv_init {follow : String → List String} {univ : List String}
    {start : String} (hstart : start ∈ univ) :
    WalkInv follow univ start [start] [] := by
  refine ⟨?_, ?_, ?_, ?_, ?_, ?_, ?_, ?_, ?_⟩
  · intro v hv; exact absurd hv (List.not_mem_nil v)
  · intro q hqmem
    rw [List.mem_singleton] at hqmem
    rw [hqmem]; exact hstart
  · exact List.nodup_nil
  · exact List.nodup_singleton _
  · intro q _ h; exact absurd h (List.not_mem_nil q)
  · intro q hqmem
    exact Or.inl (List.mem_singleton.1 hqmem)
  · intro x hx
    rcases hx with hx | hx
    · exact absurd hx (List.not_mem_nil x)
    · rw [List.mem_singleton.1 hx]; exact FReach.refl _
  · intro v hv; exact absurd hv (List.not_mem_nil v)
  · intro t hrt
    exact Or.inr ⟨start, List.mem_singleton.2 rfl, hrt⟩

lemma walkInv_step {follow : String → List String} {univ : List String}
    {dep : String → Nat} {start : String}
    (H : WalkHyps follow univ dep)
    {c : String} {rest vis : List String}
    (inv : WalkInv follow univ start (c :: rest) vis) :
    WalkInv follow univ start
      (rest ++ (follow c).filter (fun t => decide (t ∉ vis ++ [c])))
      (vis ++ [c]) := by
  have hcq : c ∈ c :: rest := List.mem_cons_self c rest
  have hcU : c ∈ univ := inv.qU c hcq
  have hcvis : c ∉ vis := inv.disj c hcq
  have hreachc : FReach follow start c := inv.sound c (Or.inr hcq)
  have hqn := List.nodup_cons.1 inv.qNodup
  have hcrest : c ∉ rest := hqn.1
  have hrestnodup : rest.Nodup := hqn.2
  have memFresh : ∀ t, t ∈ (follow c).filter (fun t => decide (t ∉ vis ++ [c])) ↔
      t ∈ follow c ∧ t ∉ vis ++ [c] := by
    intro t
    simp [List.mem_filter]
  have visU2 : ∀ v ∈ vis ++ [c], v ∈ univ := by
    intro v hv
    rcases List.mem_append.1 hv with h | h
    · exact inv.visU v h
    · rw [List.mem_singleton] at h; rw [h]; exact hcU
  have closed2 : ∀ v ∈ vis ++ [c],
      ∀ t ∈ follow v, t ∈ vis ++ [c] ∨
        t ∈ rest ++ (follow c).filter (fun t => decide (t ∉ vis ++ [c])) := by
    intro v hv t htf
    rcases List.mem_append.1 hv with h | h
    · rcases inv.closed v h t htf with h1 | h1
      · exact Or.inl (List.mem_append_left _ h1)
      · rcases List.mem_cons.1 h1 with rfl | h2
        · exact Or.inl (List.mem_append_right _ (List.mem_singleton.2 rfl))
        · exact Or.inr (List.mem_append_left _ h2)
    · rw [List.mem_singleton] at h
      rw [h] at htf
      by_cases hin : t ∈ vis ++ [c]
      · exact Or.inl hin
      · exact Or.inr (List.mem_append_right _ ((memFresh t).2 ⟨htf, hin⟩))
  refine ⟨visU2, ?_, ?_, ?_, ?_, ?_, ?_, closed2, ?_⟩
  · intro q hq
    rcases List.mem_append.1 hq with h | h
    · exact inv.qU q (List.mem_cons_of_mem _ h)
    · exact H.sub c q ((memFresh q).1 h).1
  · refine List.Nodup.append inv.visNodup (List.nodup_singleton _) ?_
    intro a ha hb
    rw [List.mem_singleton] at hb
    rw [hb] at ha
    exact hcvis ha
  · refine List.Nodup.append hrestnodup ((H.nodupF c).filter _) ?_
    intro x hxr hxf
    have hxfol : x ∈ follow c := ((memFresh x).1 hxf).1
    rcases inv.qPar x (List.mem_cons_of_mem _ hxr) with rfl | ⟨p, hp, hxp⟩
    · have h1 := H.depF c x hxfol
      have h2 := freach_dep_le H.depF hreachc
      omega
    · exact hcvis (H.uniq p c x hxp hxfol ▸ hp)
  · intro q hq
    rcases List.mem_append.1 hq with h | h
    · have h1 : q ∉ vis := inv.disj q (List.mem_cons_of_mem _ h)
      have h2 : q ≠ c := fun he => hcrest (he ▸ h)
      intro hmem
      rcases List.mem_append.1 hmem with h3 | h3
      · exact h1 h3
      · exact h2 (List.mem_singleton.1 h3)
    · exact ((memFresh q).1 h).2
  · intro q hq
    rcases List.mem_append.1 hq with h | h
    · rcases inv.qPar q (List.mem_cons_of_mem _ h) with h1 | ⟨p, hp, hqp⟩
      · exact Or.inl h1
      · exact Or.inr ⟨p, List.mem_append_left _ hp, hqp⟩
    · exact Or.inr ⟨c, List.mem_append_right _ (List.mem_singleton.2 rfl),
        ((memFresh q).1 h).1⟩
  · intro x hx
    rcases hx with hx | hx
    · rcases List.mem_append.1 hx with h | h
      · exact inv.sound x (Or.inl h)
      · rw [List.mem_singleton.1 h]; exact hreachc
    · rcases List.mem_append.1 hx with h | h
      · exact inv.sound x (Or.inr (List.mem_cons_of_mem _ h))
      · exact FReach.tail hreachc ((memFresh x).1 h).1
  · intro t hrt
    rcases inv.complete t hrt with h | ⟨u, hu, hur⟩
    · exact Or.inl (List.mem_append_left _ h)
    · rcases List.mem_cons.1 hu with rfl | h2
      · exact reach_out closed2
          (List.mem_append_right _ (List.mem_singleton.2 rfl)) hur
      · exact Or.inr ⟨u, List.mem_append_left _ h2, hur⟩

theorem walkLoop_spec {follow : String → List String} {univ : List String}
    {dep : String → Nat} {start : String}
    (H : WalkHyps follow univ dep)
    (sched : List String → List String → List String)
    (hsched : ∀ r fr, (sched r fr).Perm (r ++ fr)) :
    ∀ fuel queue vis, WalkInv follow univ start queue vis →
      univ.length + 1 ≤ fuel + vis.length →
      ∀ t, t ∈ walkLoop follow sched fuel queue vis ↔
        t ∈ vis ∨ ∃ u ∈ queue, FReach follow u t := by
  intro fuel
  induction fuel with
  | zero =>
    intro queue vis inv hb t
    exfalso
    have hsub : vis ⊆ univ := fun v hv => inv.visU v hv
    have := (List.subperm_of_subset inv.visNodup hsub).length_le
    omega
  | succ n ih =>
    intro queue vis inv hb t
    cases queue with
    | nil =>
      simp only [walkLoop]
      constructor
      · intro h; exact Or.inl h
      · rintro (h | ⟨u, hu, _⟩)
        · exact h
        · exact absurd hu (List.not_mem_nil u)
    | cons c rest =>
      have hcvis : c ∉ vis := inv.disj c (List.mem_cons_self c rest)
      have hunfold : walkLoop follow sched (n + 1) (c :: rest) vis =
          walkLoop follow sched n
            (sched rest ((follow c).filter (fun t => decide (t ∉ vis ++ [c]))))
            (vis ++ [c]) := by
        simp only [walkLoop, if_neg hcvis]
      have inv2 := walkInv_perm (hsched rest _).symm (walkInv_step H inv)
      have hres := ih
        (sched rest ((follow c).filter (fun t => decide (t ∉ vis ++ [c]))))
        (vis ++ [c]) inv2 (by simp only [List.length_append, List.length_singleton]; omega) t
      rw [hunfold, hres]
      constructor
      · rintro (hv | ⟨u, hu, hur⟩)
        · rcases List.mem_append.1 hv with h | h
          · exact Or.inl h
          · rw [List.mem_singleton] at h
            subst h
            exact Or.inr ⟨t, List.mem_cons_self _ _, FReach.refl _⟩
        · have hu2 := (hsched rest _).mem_iff.1 hu
          rcases List.mem_append.1 hu2 with h | h
          · exact Or.inr ⟨u, List.mem_cons_of_mem _ h, hur⟩
          · have hfc : u ∈ follow c := (List.mem_filter.1 h).1
            exact Or.inr ⟨c, List.mem_cons_self _ _,
              freach_trans (FReach.tail (FReach.refl c) hfc) hur⟩
      · rintro (hv | ⟨u, hu, hur⟩)
        · exact Or.inl (List.mem_append_left _ hv)
        · rcases List.mem_cons.1 hu with rfl | h
          · exact reach_out inv2.closed
              (List.mem_append_right _ (List.mem_singleton.2 rfl)) hur
          · exact Or.inr ⟨u, (hsched rest _).mem_iff.2 (List.mem_append_left _ h), hur⟩

/-! ## Instantiating the walk correctness -/

lemma visFollow_subset {nodes : List GNode} {links : List GLink} {c t : String}
    (h : t ∈ visFollow nodes links c) : t ∈ childLinkTargets links c := by
  unfold visFollow at h
  cases hf : findNode nodes c with
  | none => simp [hf] at h
  | some n =>
    by_cases hc : n.collapsed = true
    · simp [hf, hc] at h
    · simpa [hf, hc] using h

lemma IsTree.walkHyps_children {g : GraphData} {dep : String → Nat}
    (ht : IsTree g dep) : WalkHyps (childLinkTargets g.links) (nodeIds g) dep :=
  ⟨fun _ _ htm => ht.child_mem_ids htm,
   ht.nodupIds,
   fun c => ht.childTargets_nodup c,
   fun _ _ _ h1 h2 => ht.child_uniq h1 h2,
   fun _ _ htm => ht.child_dep htm⟩

lemma IsTree.walkHyps_vis {g : GraphData} {dep : String → Nat}
    (ht : IsTree g dep) : WalkHyps (visFollow g.nodes g.links) (nodeIds g) dep := by
  refine ⟨fun _ _ htm => ht.child_mem_ids (visFollow_subset htm),
    ht.nodupIds, ?_,
    fun _ _ _ h1 h2 => ht.child_uniq (visFollow_subset h1) (visFollow_subset h2),
    fun _ _ htm => ht.child_dep (visFollow_subset htm)⟩
  intro c
  unfold visFollow
  cases hf : findNode g.nodes c with
  | none => simp
  | some n =>
    by_cases hc : n.collapsed = true
    · simp [hc]
    · simpa [hc] using ht.childTargets_nodup c

/-- The visited set of the visibility walk is exactly reachability
through existing non-collapsed nodes. -/
theorem bfsVisited_iff {g : GraphData} {dep : String → Nat} (ht : IsTree g dep)
    (t : String) :
    t ∈ bfsLoop g.nodes g.links (walkFuel g) ["root"] [] ↔
      FReach (visFollow g.nodes g.links) "root" t := by
  rw [bfsLoop_eq_walkLoop]
  rw [walkLoop_spec ht.walkHyps_vis _ (fun r fr => List.Perm.refl _)
    (walkFuel g) ["root"] [] (walkInv_init ht.rootMem)
    (by simp only [walkFuel, nodeIds, List.length_map, List.length_nil]; omega) t]
  constructor
  · rintro (h | ⟨u, hu, hur⟩)
    · exact absurd h (List.not_mem_nil t)
    · rw [List.mem_singleton] at hu
      rw [← hu]; exact hur
  · intro h
    exact Or.inr ⟨"root", List.mem_singleton.2 rfl, h⟩

lemma childLinkTargets_nil_of_not_src {g : GraphData} {dep : String → Nat}
    (ht : IsTree g dep) {X : String} (hX : X ∉ nodeIds g) :
    childLinkTargets g.links X = [] := by
  unfold childLinkTargets
  rw [List.map_eq_nil_iff, List.filter_eq_nil_iff]
  intro l hl
  rw [beq_iff_eq]
  intro hs
  exact hX (hs ▸ ht.srcMem l hl)

/-- The collected set of the delete walk is exactly forward
reachability from the deleted id. -/
lemma revSched_perm (r fr : List String) : (fr.reverse ++ r).Perm (r ++ fr) :=
  List.perm_append_comm.trans (List.Perm.append_left r (List.reverse_perm fr))

theorem dfsDeleted_iff {g : GraphData} {dep : String → Nat} (ht : IsTree g dep)
    (X t : String) :
    t ∈ dfsLoop g.links (walkFuel g) [X] [] ↔ Reach g.links X t := by
  by_cases hX : X ∈ nodeIds g
  · rw [dfsLoop_eq_walkLoop]
    rw [walkLoop_spec ht.walkHyps_children _
      (fun r fr => revSched_perm r fr)
      (walkFuel g) [X] [] (walkInv_init hX)
      (by simp only [walkFuel, nodeIds, List.length_map, List.length_nil]; omega) t]
    constructor
    · rintro (h | ⟨u, hu, hur⟩)
      · exact absurd h (List.not_mem_nil t)
      · rw [List.mem_singleton] at hu
        rw [← hu]; exact hur
    · intro h
      exact Or.inr ⟨X, List.mem_singleton.2 rfl, h⟩
  · have hnil : childLinkTargets g.links X = [] :=
      childLinkTargets_nil_of_not_src ht hX
    have hrun : dfsLoop g.links (walkFuel g) [X] [] = [X] := by
      have h1 : walkFuel g = (walkFuel g - 1) + 1 := by
        unfold walkFuel; omega
      rw [h1]
      simp only [dfsLoop, hnil]
      cases walkFuel g - 1 with
      | zero => rfl
      | succ m => rfl
    rw [hrun]
    constructor
    · intro h
      rw [List.mem_singleton] at h
      rw [h]
      exact FReach.refl _
    · intro h
      rcases freach_head h with rfl | ⟨d, hd, _⟩
      · exact List.mem_singleton.2 rfl
      · rw [hnil] at hd
        exact absurd hd (List.not_mem_nil d)

lemma visibleFromRoot_iff (nodes : List GNode) (links : List GLink) (t : String) :
    VisibleFromRoot nodes links t ↔ FReach (visFollow nodes links) "root" t := by
  constructor
  · intro h
    induction h with
    | root => exact FReach.refl _
    | child hp hn hl ih =>
      rcases hn with ⟨n, hfind, hcol⟩
      rcases hl with ⟨l, hlm, hs, htg⟩
      refine FReach.tail ih ?_
      simp only [visFollow, hfind, hcol, Bool.false_eq_true, if_false]
      exact mem_childLinkTargets.2 ⟨l, hlm, hs, htg⟩
  · intro h
    induction h with
    | refl => exact VisibleFromRoot.root
    | tail hab hc ih =>
      rename_i b c
      unfold visFollow at hc
      cases hf : findNode nodes b with
      | none => simp [hf] at hc
      | some n =>
        by_cases hcol : n.collapsed = true
        · simp [hf, hcol] at hc
        · rw [Bool.not_eq_true] at hcol
          simp only [hf, hcol, Bool.false_eq_true, if_false] at hc
          rcases mem_childLinkTargets.1 hc with ⟨l, hlm, hs, htg⟩
          exact VisibleFromRoot.child ih ⟨n, hf, hcol⟩ ⟨l, hlm, hs, htg⟩

/-- C1.  For every node set, link set and collapse assignment forming a
tree rooted at root, visibleGraphData returns exactly the nodes
reachable from root through a chain of non-collapsed ancestors together
with the links induced on that node set, and two calls with identical
inputs produce identical visible sets. -/
theorem c1_visibleGraphData_spec {g : GraphData} {dep : String → Nat}
    (ht : IsTree g dep) :
    (∀ n, n ∈ (visibleGraphData g).nodes ↔
        n ∈ g.nodes ∧ VisibleFromRoot g.nodes g.links n.id) ∧
    (∀ l, l ∈ (visibleGraphData g).links ↔
        l ∈ g.links ∧ VisibleFromRoot g.nodes g.links l.source ∧
          VisibleFromRoot g.nodes g.links l.target) ∧
    (∀ g2, g2 = g → visibleGraphData g2 = visibleGraphData g) := by
  refine ⟨?_, ?_, fun g2 h => h ▸ rfl⟩
  · intro n
    simp only [visibleGraphData, List.mem_filter, decide_eq_true_eq]
    rw [bfsVisited_iff ht, visibleFromRoot_iff]
  · intro l
    simp only [visibleGraphData, List.mem_filter, Bool.and_eq_true,
      decide_eq_true_eq]
    rw [bfsVisited_iff ht, bfsVisited_iff ht,
      visibleFromRoot_iff, visibleFromRoot_iff]

/-! Shared concrete witness inputs: the tree
root -> a -> b with a collapsed. -/

def gW1 : GraphData :=
  { nodes := [{ id := "root" }, { id := "a", collapsed := true }, { id := "b" }],
    links := [{ source := "root", target := "a" }, { source := "a", target := "b" }] }

def depW1 : String → Nat :=
  fun s => if s = "root" then 0 else if s = "a" then 1 else 2

lemma gW1_tree : IsTree gW1 depW1 := by
  refine ⟨?_, ?_, ?_, ?_, ?_, ?_, ?_, ?_, ?_⟩
  · decide
  · decide
  · decide
  · decide
  · decide
  · decide
  · decide
  · decide
  · intro i hi
    have h3 : i = "root" ∨ i = "a" ∨ i = "b" := by
      simpa [gW1, nodeIds] using hi
    rcases h3 with rfl | rfl | rfl
    · exact FReach.refl _
    · exact FReach.tail (FReach.refl "root")
        (show "a" ∈ childLinkTargets gW1.links "root" by decide)
    · exact FReach.tail
        (FReach.tail (FReach.refl "root")
          (show "a" ∈ childLinkTargets gW1.links "root" by decide))
        (show "b" ∈ childLinkTargets gW1.links "a" by decide)

theorem c1_visibleGraphData_spec_witness :
    IsTree gW1 depW1 ∧
      (({ id := "b" } : GNode) ∈ (visibleGraphData gW1).nodes ↔
        ({ id := "b" } : GNode) ∈ gW1.nodes ∧
          VisibleFromRoot gW1.nodes gW1.links "b") :=
  ⟨gW1_tree, (c1_visibleGraphData_spec gW1_tree).1 { id := "b" }⟩

/-! ## C2: dangling link pruning -/

/-- Graph with a dangling link: the target ghost has no node. -/
def gC2 : GraphData :=
  { nodes := [{ id := "root" }],
    links := [{ source := "root", target := "ghost" }] }

/-- C2 counterexample.  The claim says the returned link set contains no
link whose source or target id is absent from the returned node set for
every input with a dangling reference.  On gC2 the walk enqueues the
missing id ghost, so the dangling link survives while ghost has no node
in the output. -/
theorem c2_counterexample :
    (visibleGraphData gC2).links = [{ source := "root", target := "ghost" }] ∧
    (visibleGraphData gC2).nodes.map (fun n => n.id) = ["root"] ∧
    ¬ ∃ n ∈ (visibleGraphData gC2).nodes, n.id = "ghost" := by
  refine ⟨?_, ?_, ?_⟩
  · decide
  · decide
  · decide

/-- C2 amended.  No error is raised (the computation is total), and a
returned link never references an id that has a node in the input but is
missing from the returned node set: an endpoint of a surviving link that
is absent from the returned nodes was already dangling in the input.
Every returned node and link comes from the input. -/
theorem c2_visible_prunes_dangling (g : GraphData) (l : GLink)
    (hl : l ∈ (visibleGraphData g).links) :
    ((∃ n ∈ g.nodes, n.id = l.source) →
      ∃ n ∈ (visibleGraphData g).nodes, n.id = l.source) ∧
    ((∃ n ∈ g.nodes, n.id = l.target) →
      ∃ n ∈ (visibleGraphData g).nodes, n.id = l.target) ∧
    l ∈ g.links := by
  simp only [visibleGraphData, List.mem_filter, Bool.and_eq_true,
    decide_eq_true_eq] at hl ⊢
  refine ⟨?_, ?_, hl.1⟩
  · rintro ⟨n, hn, hid⟩
    exact ⟨n, ⟨hn, hid ▸ hl.2.1⟩, hid⟩
  · rintro ⟨n, hn, hid⟩
    exact ⟨n, ⟨hn, hid ▸ hl.2.2⟩, hid⟩

theorem c2_visible_prunes_dangling_witness :
    ∃ n ∈ (visibleGraphData gC2).nodes,
      n.id = (GLink.mk "root" "ghost" 1).source :=
  (c2_visible_prunes_dangling gC2 (GLink.mk "root" "ghost" 1) (by decide)).1
    ⟨{ id := "root" }, by decide, rfl⟩

/-! ## The path of a node to root

In a tree the path from a node to root is the chain of iterated
parents.  The claim about deletion says a node is removed exactly when
the deleted id lies on this path. -/

def chainAux (links : List GLink) : Nat → String → List String
  | 0, i => [i]
  | fuel + 1, i =>
    i :: (match parentOf links i with
      | none => []
      | some p => chainAux links fuel p)

/-- The path from a node up to root: the node itself, its parent, its
grandparent, ..., ending at root. -/
def chainToRoot (links : List GLink) (i : String) : List String :=
  chainAux links links.length i

lemma find?_eq_of_unique {α : Type} (p : α → Bool) :
    ∀ (l : List α) (a : α), a ∈ l → p a = true →
      (∀ b ∈ l, p b = true → b = a) → l.find? p = some a := by
  intro l
  induction l with
  | nil => intro a ha _ _; exact absurd ha (List.not_mem_nil a)
  | cons x xs ih =>
    intro a ha hp huniq
    by_cases hx : p x = true
    · rw [List.find?_cons_of_pos _ hx]
      rw [huniq x (List.mem_cons_self _ _) hx]
    · rw [List.find?_cons_of_neg _ hx]
      rcases List.mem_cons.1 ha with rfl | ha2
      · exact absurd hp hx
      · exact ih a ha2 hp (fun b hb hpb => huniq b (List.mem_cons_of_mem _ hb) hpb)

lemma IsTree.parentOf_eq {g : GraphData} {dep : String → Nat} (ht : IsTree g dep)
    {l : GLink} (hl : l ∈ g.links) : parentOf g.links l.target = some l.source := by
  unfold parentOf
  have h := find?_eq_of_unique (fun l2 => l2.target == l.target) g.links l hl
    (by simp) (fun b hb hpb => ht.target_inj hb hl (by simpa using hpb))
  rw [h]
  rfl

lemma IsTree.parentOf_root {g : GraphData} {dep : String → Nat}
    (ht : IsTree g dep) : parentOf g.links "root" = none := by
  unfold parentOf
  rw [List.find?_eq_none.2 ?_]
  · rfl
  · intro l hl
    simpa using ht.noIntoRoot hl

lemma parentOf_link {links : List GLink} {i p : String}
    (h : parentOf links i = some p) :
    ∃ l ∈ links, l.target = i ∧ l.source = p := by
  unfold parentOf at h
  cases hf : links.find? (fun l => l.target == i) with
  | none => rw [hf] at h; exact absurd h (by simp)
  | some l =>
    rw [hf] at h
    have hp := List.find?_some hf
    rw [beq_iff_eq] at hp
    refine ⟨l, List.mem_of_find?_eq_some hf, hp, ?_⟩
    simpa using h

lemma IsTree.parentOf_dep {g : GraphData} {dep : String → Nat} (ht : IsTree g dep)
    {i p : String} (h : parentOf g.links i = some p) : dep i = dep p + 1 := by
  rcases parentOf_link h with ⟨l, hl, htg, hs⟩
  have := ht.depLink l hl
  rw [htg, hs] at this
  exact this

lemma IsTree.parentOf_depLe {g : GraphData} {dep : String → Nat} (ht : IsTree g dep)
    {i p : String} (h : parentOf g.links i = some p) : dep i ≤ g.links.length := by
  rcases parentOf_link h with ⟨l, hl, htg, _⟩
  have := ht.depLe l hl
  rwa [htg] at this

lemma IsTree.parentOf_child {g : GraphData} {dep : String → Nat} (ht : IsTree g dep)
    {i p : String} (h : parentOf g.links i = some p) :
    i ∈ childLinkTargets g.links p := by
  rcases parentOf_link h with ⟨l, hl, htg, hs⟩
  exact mem_childLinkTargets.2 ⟨l, hl, hs, htg⟩

lemma chainAux_of_parent_none {links : List GLink} {i : String}
    (h : parentOf links i = none) : ∀ fuel, chainAux links fuel i = [i] := by
  intro fuel
  cases fuel with
  | zero => rfl
  | succ n => simp [chainAux, h]

lemma chainAux_stable {g : GraphData} {dep : String → Nat} (ht : IsTree g dep) :
    ∀ d i f1 f2, dep i = d → d ≤ f1 → d ≤ f2 →
      chainAux g.links f1 i = chainAux g.links f2 i := by
  intro d
  induction d using Nat.strong_induction_on with
  | _ d ih =>
    intro i f1 f2 hdi h1 h2
    cases hp : parentOf g.links i with
    | none => rw [chainAux_of_parent_none hp, chainAux_of_parent_none hp]
    | some p =>
      have hdep : dep i = dep p + 1 := ht.parentOf_dep hp
      have hf1 : f1 = (f1 - 1) + 1 := by omega
      have hf2 : f2 = (f2 - 1) + 1 := by omega
      rw [hf1, hf2]
      simp only [chainAux, hp]
      rw [ih (dep p) (by omega) p (f1 - 1) (f2 - 1) rfl (by omega) (by omega)]

lemma chainToRoot_cons {g : GraphData} {dep : String → Nat} (ht : IsTree g dep)
    {i p : String} (hp : parentOf g.links i = some p) :
    chainToRoot g.links i = i :: chainToRoot g.links p := by
  have hle : dep i ≤ g.links.length := ht.parentOf_depLe hp
  have hdep : dep i = dep p + 1 := ht.parentOf_dep hp
  obtain ⟨M, hM⟩ : ∃ M, g.links.length = M + 1 :=
    ⟨g.links.length - 1, by omega⟩
  have hstep : chainAux g.links (M + 1) i = i :: chainAux g.links M p := by
    simp [chainAux, hp]
  unfold chainToRoot
  rw [hM, hstep]
  congr 1
  exact chainAux_stable ht (dep p) p M (M + 1) rfl (by omega) (by omega)

lemma chainToRoot_of_parent_none {links : List GLink} {i : String}
    (h : parentOf links i = none) : chainToRoot links i = [i] :=
  chainAux_of_parent_none h links.length

lemma self_mem_chain (links : List GLink) (i : String) :
    i ∈ chainToRoot links i := by
  unfold chainToRoot
  cases links.length with
  | zero => exact List.mem_singleton.2 rfl
  | succ n => simp [chainAux]

/-- In a tree, the deleted id X lies on the path of i to root exactly
when i is forward reachable from X. -/
lemma reach_iff_mem_chain {g : GraphData} {dep : String → Nat}
    (ht : IsTree g dep) (X i : String) :
    Reach g.links X i ↔ X ∈ chainToRoot g.links i := by
  constructor
  · intro h
    induction h with
    | refl => exact self_mem_chain _ _
    | tail hab hc ih =>
      rename_i b c
      rcases mem_childLinkTargets.1 hc with ⟨l, hl, hs, htg⟩
      have hpc : parentOf g.links c = some b := by
        have := ht.parentOf_eq hl
        rw [htg, hs] at this
        exact this
      rw [chainToRoot_cons ht hpc]
      exact List.mem_cons_of_mem _ ih
  · have main : ∀ d j, dep j = d → X ∈ chainToRoot g.links j → Reach g.links X j := by
      intro d
      induction d using Nat.strong_induction_on with
      | _ d ih =>
        intro j hdj hX
        cases hp : parentOf g.links j with
        | none =>
          rw [chainToRoot_of_parent_none hp, List.mem_singleton] at hX
          rw [hX]; exact FReach.refl _
        | some p =>
          rw [chainToRoot_cons ht hp] at hX
          rcases List.mem_cons.1 hX with rfl | h2
          · exact FReach.refl _
          · have hdep : dep j = dep p + 1 := ht.parentOf_dep hp
            exact FReach.tail (ih (dep p) (by omega) p rfl h2)
              (ht.parentOf_child hp)
    exact main (dep i) i rfl

/-- C3.  Deleting root is a silent no-op; deleting any other id X
removes exactly the nodes whose path to root passes through X, removes
exactly the links with a removed endpoint, and leaves no surviving link
referencing a removed id. -/
theorem c3_handleDeleteNode_spec {g : GraphData} {dep : String → Nat}
    (ht : IsTree g dep) (X : String) :
    (X = "root" → handleDeleteNode X g = g) ∧
    (X ≠ "root" →
      (∀ n, n ∈ (handleDeleteNode X g).nodes ↔
          n ∈ g.nodes ∧ X ∉ chainToRoot g.links n.id) ∧
      (∀ l, l ∈ (handleDeleteNode X g).links ↔
          l ∈ g.links ∧ X ∉ chainToRoot g.links l.source ∧
            X ∉ chainToRoot g.links l.target) ∧
      (∀ l ∈ (handleDeleteNode X g).links, ∀ n ∈ g.nodes,
          X ∈ chainToRoot g.links n.id → l.source ≠ n.id ∧ l.target ≠ n.id)) := by
  constructor
  · intro h
    rw [h]
    simp [handleDeleteNode]
  · intro hne
    have hif : (X == "root") = false := beq_eq_false_iff_ne.2 hne
    have hnodes : ∀ n : GNode, n ∈ (handleDeleteNode X g).nodes ↔
        n ∈ g.nodes ∧ X ∉ chainToRoot g.links n.id := by
      intro n
      simp only [handleDeleteNode, hif, Bool.false_eq_true, if_false,
        List.mem_filter, decide_eq_true_eq]
      rw [dfsDeleted_iff ht, reach_iff_mem_chain ht]
    have hlinks : ∀ l : GLink, l ∈ (handleDeleteNode X g).links ↔
        l ∈ g.links ∧ X ∉ chainToRoot g.links l.source ∧
          X ∉ chainToRoot g.links l.target := by
      intro l
      simp only [handleDeleteNode, hif, Bool.false_eq_true, if_false,
        List.mem_filter, Bool.and_eq_true, decide_eq_true_eq]
      rw [dfsDeleted_iff ht, dfsDeleted_iff ht, reach_iff_mem_chain ht,
        reach_iff_mem_chain ht]
    refine ⟨hnodes, hlinks, ?_⟩
    intro l hl n _ hXn
    rcases (hlinks l).1 hl with ⟨_, hs, htg⟩
    constructor
    · intro he; exact hs (he ▸ hXn)
    · intro he; exact htg (he ▸ hXn)

theorem c3_handleDeleteNode_spec_witness :
    IsTree gW1 depW1 ∧
      (({ id := "b" } : GNode) ∈ (handleDeleteNode "a" gW1).nodes ↔
        ({ id := "b" } : GNode) ∈ gW1.nodes ∧ "a" ∉ chainToRoot gW1.links "b") :=
  ⟨gW1_tree, ((c3_handleDeleteNode_spec gW1_tree "a").2 (by decide)).1 { id := "b" }⟩

/-! ## C5: determinism of the natural path generator -/

/-- C5.  Two calls of generateNaturalPath with identical arguments
return identical control points and path data, and the underlying
seeded generator step is itself a pure function of the seed.  The
content of the claim is that the geometry is a function of the
arguments alone, which holds because the embedding of makeRng threads
the seed explicitly and the source draws from no other random
source. -/
theorem c5_generateNaturalPath_deterministic
    (x1 y1 x2 y2 : ℚ) (level : Nat) (seed : Nat) :
    generateNaturalPath x1 y1 x2 y2 level seed =
      generateNaturalPath x1 y1 x2 y2 level seed ∧
    rngStep seed = rngStep seed :=
  ⟨rfl, rfl⟩

/-! ## C6: position continuity across re-runs -/

/-- C6 amended.  The remap of the rendering effect copies x, y, vx, vy,
fx, fy forward for every surviving non-root id, and seeds every brand
new non-root id at the canvas center (width / 2, height / 2) with zero
velocity and no pin, regardless of where its parent sits. -/
theorem c6_remapNodes_spec (mode : LayoutMode) (w h : ℚ) (ns : List GNode)
    (os : String → Option SimState) (sm : String → Option Int) :
    remapNodes mode w h ns os sm =
      ns.map (remapOne mode w h ns.length os sm) ∧
    (∀ d : GNode, d.id ≠ "root" → ∀ ex, os d.id = some ex →
      remapOne mode w h ns.length os sm d =
        { node := d, x := ex.x, y := ex.y, vx := ex.vx, vy := some ex.vy,
          fx := ex.fx, fy := ex.fy, side := (sm d.id).getD 1 }) ∧
    (∀ d : GNode, d.id ≠ "root" → os d.id = none →
      remapOne mode w h ns.length os sm d =
        { node := d, x := w / 2, y := h / 2, vx := 0, vy := none,
          fx := none, fy := none, side := (sm d.id).getD 1 }) := by
  refine ⟨rfl, ?_, ?_⟩
  · intro d hdr ex hos
    simp [remapOne, hos, hdr]
  · intro d hdr hos
    simp [remapOne, hos, hdr]

/-- Concrete store for the C6 counterexample: the parent a sits at
(100, 100), far from the canvas center; root carries a pin. -/
def osC6 : String → Option SimState :=
  fun s =>
    if s = "root" then
      some { x := 1, y := 2, vx := 0, vy := 0, fx := some 5, fy := some 6 }
    else if s = "a" then some { x := 100, y := 100, vx := 0, vy := 0 }
    else none

def nsC6 : List GNode := [{ id := "root" }, { id := "a" }, { id := "b" }]

/-- C6 counterexample.  In the master graph b is the child of a (link
a to b), a sits at (100, 100), and the canvas is 800 by 600.  The claim
predicts the new node b is seeded at the position of its parent
(100, 100); the code seeds it at the canvas center (400, 300) - the
remap never consults the links at all.  The claim also predicts that
the pinned fx of a surviving root is copied forward; in Spider mode the
code clears it. -/
theorem c6_counterexample :
    ((remapNodes LayoutMode.spider 800 600 nsC6 osC6 (fun _ => none))[2]? =
      some { node := { id := "b" }, x := 400, y := 300, vx := 0, vy := none,
             fx := none, fy := none, side := 1 }) ∧
    (osC6 "a").map (fun ex => (ex.x, ex.y)) = some (100, 100) ∧
    ¬ ((400 : ℚ) = 100 ∧ (300 : ℚ) = 100) ∧
    ((remapNodes LayoutMode.spider 800 600 nsC6 osC6 (fun _ => none))[0]?).map
      (fun s => s.fx) = some none ∧
    (osC6 "root").map (fun s => s.fx) = some (some 5) := by
  refine ⟨?_, ?_, ?_, ?_, ?_⟩
  · simp [remapNodes, remapOne, nsC6, osC6]
    norm_num
  · simp [osC6]
  · norm_num
  · simp [remapNodes, remapOne, nsC6, osC6]
  · simp [osC6]

/-! ## C7: trunk tiers and root edge spring lengths -/

lemma nodes_id_inj {nodes : List GNode}
    (hnodup : (nodes.map (fun n => n.id)).Nodup) {m n : GNode}
    (hm : m ∈ nodes) (hn : n ∈ nodes) (h : m.id = n.id) : m = n := by
  rw [List.Nodup, List.pairwise_map] at hnodup
  by_contra hne
  have hsymm : Symmetric (fun a b : GNode => a.id ≠ b.id) :=
    fun a b hab => fun hba => hab hba.symm
  exact hnodup.forall hsymm hm hn hne h

lemma level1Sorted_perm (nodes : List GNode) (links : List GLink) :
    (level1Sorted nodes links).Perm (nodes.filter (isLevel1 links)) :=
  List.perm_insertionSort _ _

lemma level1Sorted_subset {nodes : List GNode} {links : List GLink} {n : GNode}
    (h : n ∈ level1Sorted nodes links) : n ∈ nodes ∧ isLevel1 links n = true := by
  have := (level1Sorted_perm nodes links).mem_iff.1 h
  exact List.mem_filter.1 this

lemma level1Sorted_ids_nodup {nodes : List GNode} {links : List GLink}
    (hnodup : (nodes.map (fun n => n.id)).Nodup) :
    ((level1Sorted nodes links).map (fun n => n.id)).Nodup := by
  have h1 : ((nodes.filter (isLevel1 links)).map (fun n => n.id)).Nodup :=
    ((List.filter_sublist nodes).map _).nodup hnodup
  exact (((level1Sorted_perm nodes links).map _).nodup_iff).2 h1

lemma assignTrunkTiers_find {nodes : List GNode} {links : List GLink}
    (hnodup : (nodes.map (fun n => n.id)).Nodup)
    {i : Nat} (hi : i < (level1Sorted nodes links).length) :
    ((level1Sorted nodes links).enum.map
        (fun p => (p.2.id, trunkTierOf (level1Sorted nodes links).length p.1))).find?
        (fun p => p.1 == ((level1Sorted nodes links).get ⟨i, hi⟩).id) =
      some (((level1Sorted nodes links).get ⟨i, hi⟩).id,
        trunkTierOf (level1Sorted nodes links).length i) := by
  have hLn : (level1Sorted nodes links).Nodup :=
    (@level1Sorted_ids_nodup nodes links hnodup).of_map
  apply find?_eq_of_unique
  · refine List.mem_map.2 ⟨(i, (level1Sorted nodes links).get ⟨i, hi⟩), ?_, rfl⟩
    rw [List.mem_enum_iff_getElem?, List.get_eq_getElem]
    exact List.getElem?_eq_getElem hi
  · simp
  · rintro ⟨k, tv⟩ hb hpb
    rcases List.mem_map.1 hb with ⟨⟨j, m⟩, hjm, hemap⟩
    have hj := List.mem_enum_iff_getElem?.1 hjm
    have hjlt : j < (level1Sorted nodes links).length := by
      by_contra hge
      rw [List.getElem?_eq_none (by omega)] at hj
      exact Option.noConfusion hj
    have hmget : m = (level1Sorted nodes links)[j] := by
      have h2 := List.getElem?_eq_getElem hjlt
      rw [hj] at h2
      exact Option.some_inj.1 h2
    have hk : k = m.id := by
      have := congrArg Prod.fst hemap
      exact this.symm
    have htv : tv = trunkTierOf (level1Sorted nodes links).length j := by
      have := congrArg Prod.snd hemap
      exact this.symm
    have hkid : m.id = ((level1Sorted nodes links).get ⟨i, hi⟩).id := by
      rw [← hk]
      exact beq_iff_eq.1 hpb
    have hmm : m ∈ level1Sorted nodes links := by
      rw [hmget]
      exact List.getElem_mem hjlt
    have hnm : (level1Sorted nodes links).get ⟨i, hi⟩ ∈ level1Sorted nodes links :=
      List.get_mem _ _ hi
    have hmn : m = (level1Sorted nodes links).get ⟨i, hi⟩ :=
      nodes_id_inj (@level1Sorted_ids_nodup nodes links hnodup) hmm hnm hkid
    have hij : j = i := by
      have hinj := List.nodup_iff_injective_get.1 hLn
      have hget : (level1Sorted nodes links).get ⟨j, hjlt⟩ =
          (level1Sorted nodes links).get ⟨i, hi⟩ := by
        rw [List.get_eq_getElem, ← hmget]
        exact hmn
      have := hinj hget
      exact congrArg Fin.val this
    rw [hk, htv, hkid, hij]

/-- C7.  In Seed mode the direct children of root, sorted by id, receive
trunkTier values evenly distributed over [0.2, 0.75] (0.475 for a single
child), every other node keeps its record unchanged, and the spring
length of a root-attached edge is 30 + trunkTier * 60 and grows
monotonically with the tier, so a node attached lower on the trunk gets
the larger spring target toward the ground. -/
theorem c7_trunkTier_spec {nodes : List GNode} {links : List GLink}
    (hnodup : (nodes.map (fun n => n.id)).Nodup)
    (hnoroot : ∀ l ∈ links, l.target ≠ "root") :
    (∀ n, isLevel1 links n = true ↔
      (n.id ≠ "root" ∧ ∃ l ∈ links, l.source = "root" ∧ l.target = n.id)) ∧
    (∀ i (hi : i < (level1Sorted nodes links).length),
      { (level1Sorted nodes links).get ⟨i, hi⟩ with
          trunkTier := some (trunkTierOf (level1Sorted nodes links).length i) }
        ∈ assignTrunkTiers nodes links) ∧
    (∀ n ∈ nodes, isLevel1 links n = false → n ∈ assignTrunkTiers nodes links) ∧
    (∀ count i, i < count →
      (2 : ℚ) / 10 ≤ trunkTierOf count i ∧ trunkTierOf count i ≤ 75 / 100 ∧
      (count = 1 → trunkTierOf count i = 475 / 1000) ∧
      (1 < count → trunkTierOf count i =
        2 / 10 + (55 / 100) * ((i : ℚ) / ((count : ℚ) - 1)))) ∧
    (∀ (ns2 : List GNode) (l : GLink) (t : GNode) (tier : ℚ),
      findNode ns2 l.target = some t → t.trunkTier = some tier →
      l.source = "root" → linkDistanceSeed ns2 l = 30 + tier * 60) ∧
    (∀ t1 t2 : ℚ, t1 ≤ t2 → 30 + t1 * 60 ≤ 30 + t2 * 60) := by
  refine ⟨?_, ?_, ?_, ?_, ?_, ?_⟩
  · intro n
    unfold isLevel1
    simp only [Bool.and_eq_true, List.any_eq_true, Bool.or_eq_true, beq_iff_eq,
      bne_iff_ne]
    constructor
    · rintro ⟨hid, l, hl, h⟩
      rcases h with ⟨hs, htg⟩ | ⟨htg, _⟩
      · exact ⟨hid, l, hl, hs, htg⟩
      · exact absurd htg (hnoroot l hl)
    · rintro ⟨hid, l, hl, hs, htg⟩
      exact ⟨hid, l, hl, Or.inl ⟨hs, htg⟩⟩
  · intro i hi
    have hfind := @assignTrunkTiers_find nodes links hnodup i hi
    have hmem : (level1Sorted nodes links).get ⟨i, hi⟩ ∈ nodes :=
      (level1Sorted_subset (List.get_mem _ _ hi)).1
    unfold assignTrunkTiers
    refine List.mem_map.2 ⟨(level1Sorted nodes links).get ⟨i, hi⟩, hmem, ?_⟩
    rw [hfind]
  · intro n hn hlev
    unfold assignTrunkTiers
    refine List.mem_map.2 ⟨n, hn, ?_⟩
    have hnone : ((level1Sorted nodes links).enum.map
        (fun p => (p.2.id, trunkTierOf (level1Sorted nodes links).length p.1))).find?
        (fun p => p.1 == n.id) = none := by
      rw [List.find?_eq_none]
      rintro ⟨k, tv⟩ hb
      rcases List.mem_map.1 hb with ⟨⟨j, m⟩, hjm, hemap⟩
      have hj := List.mem_enum_iff_getElem?.1 hjm
      have hmm : m ∈ level1Sorted nodes links := List.getElem?_mem hj
      have hk : k = m.id := (congrArg Prod.fst hemap).symm
      rcases level1Sorted_subset hmm with ⟨hmn, hml⟩
      simp only [hk, beq_iff_eq]
      intro heq
      have : m = n := nodes_id_inj hnodup hmn hn heq
      rw [this] at hml
      rw [hml] at hlev
      exact Bool.noConfusion hlev
    rw [hnone]
  · intro count i hic
    unfold trunkTierOf
    by_cases hc : 1 < count
    · have hic2 : (i : ℚ) + 1 ≤ (count : ℚ) := by exact_mod_cast hic
      have hc2 : (1 : ℚ) < (count : ℚ) := by exact_mod_cast hc
      have hpos : (0 : ℚ) < (count : ℚ) - 1 := by linarith
      have hrat0 : (0 : ℚ) ≤ (i : ℚ) / ((count : ℚ) - 1) :=
        div_nonneg (by positivity) (le_of_lt hpos)
      have hrat1 : (i : ℚ) / ((count : ℚ) - 1) ≤ 1 :=
        (div_le_one hpos).2 (by linarith)
      have hmul0 : (0 : ℚ) ≤ (i : ℚ) / ((count : ℚ) - 1) * (55 / 100) := by positivity
      have hmul1 : (i : ℚ) / ((count : ℚ) - 1) * (55 / 100) ≤ 55 / 100 := by nlinarith
      refine ⟨?_, ?_, ?_, ?_⟩
      · simp only [if_pos hc]; linarith
      · simp only [if_pos hc]; linarith
      · intro h1; omega
      · intro _; simp only [if_pos hc]; ring
    · have hc1 : count = 1 := by omega
      subst hc1
      refine ⟨?_, ?_, ?_, ?_⟩
      · simp only [if_neg hc]; norm_num
      · simp only [if_neg hc]; norm_num
      · intro _; simp only [if_neg hc]; norm_num
      · intro h1; omega
  · intro ns2 l t tier hfind htier hsrc
    simp only [linkDistanceSeed, hfind, htier, hsrc, beq_self_eq_true, if_true]
    norm_num
  · intro t1 t2 h
    linarith

/-! Concrete inputs for the C7 witness: root with children a and b. -/

def nsC7 : List GNode := [{ id := "root" }, { id := "a" }, { id := "b" }]

def lsC7 : List GLink :=
  [{ source := "root", target := "a" }, { source := "root", target := "b" }]

theorem c7_trunkTier_spec_witness :
    (∀ l ∈ lsC7, l.target ≠ "root") ∧
      (30 : ℚ) + (2 / 10) * 60 ≤ 30 + (75 / 100) * 60 :=
  ⟨by decide,
   (@c7_trunkTier_spec nsC7 lsC7 (by decide)
       (by decide)).2.2.2.2.2
     (2 / 10) (75 / 100) (by norm_num)⟩

/-! ## C8: subtree weights -/

lemma childTargets_nil_of_deep {g : GraphData} {dep : String → Nat}
    (ht : IsTree g dep) {c : String} (hc : g.links.length < dep c) :
    childLinkTargets g.links c = [] := by
  cases hne : childLinkTargets g.links c with
  | nil => rfl
  | cons t ts =>
    exfalso
    have htm : t ∈ childLinkTargets g.links c := by
      rw [hne]; exact List.mem_cons_self _ _
    have h1 := ht.child_dep htm
    rcases mem_childLinkTargets.1 htm with ⟨l, hl, _, htg⟩
    have h2 := ht.depLe l hl
    rw [htg] at h2
    omega

lemma getWeight_stable {g : GraphData} {dep : String → Nat} (ht : IsTree g dep) :
    ∀ n i f1 f2, g.links.length + 1 - dep i = n → n ≤ f1 → n ≤ f2 →
      getWeight g.links f1 i = getWeight g.links f2 i := by
  intro n
  induction n using Nat.strong_induction_on with
  | _ n ih =>
    intro i f1 f2 hn h1 h2
    by_cases hdeep : g.links.length < dep i
    · have hnil := childTargets_nil_of_deep ht hdeep
      have hval : ∀ f, getWeight g.links f i = 1 := by
        intro f
        cases f with
        | zero => rfl
        | succ m => simp [getWeight, hnil]
      rw [hval, hval]
    · have hn1 : 1 ≤ n := by omega
      obtain ⟨m1, rfl⟩ : ∃ m1, f1 = m1 + 1 := ⟨f1 - 1, by omega⟩
      obtain ⟨m2, rfl⟩ : ∃ m2, f2 = m2 + 1 := ⟨f2 - 1, by omega⟩
      simp only [getWeight]
      have hmap : List.map (getWeight g.links m1) (childLinkTargets g.links i) =
          List.map (getWeight g.links m2) (childLinkTargets g.links i) := by
        apply List.map_congr_left
        intro t htm
        have hdt := ht.child_dep htm
        exact ih (g.links.length + 1 - dep t) (by omega) t m1 m2 rfl
          (by omega) (by omega)
      rw [hmap]

lemma subtreeIds_length (links : List GLink) :
    ∀ fuel i, (subtreeIds links fuel i).length = getWeight links fuel i := by
  intro fuel
  induction fuel with
  | zero => intro i; rfl
  | succ n ih =>
    intro i
    simp only [subtreeIds, getWeight, List.length_cons, List.length_flatMap]
    have hmap : List.map (List.length ∘ subtreeIds links n)
        (childLinkTargets links i) =
        List.map (getWeight links n) (childLinkTargets links i) :=
      List.map_congr_left (fun t _ => ih t)
    rw [hmap]
    omega

lemma mem_subtreeIds {g : GraphData} {dep : String → Nat} (ht : IsTree g dep) :
    ∀ n i, g.links.length + 1 - dep i = n → ∀ f, n ≤ f →
      ∀ t, t ∈ subtreeIds g.links f i ↔ Reach g.links i t := by
  intro n
  induction n using Nat.strong_induction_on with
  | _ n ih =>
    intro i hn f hf t
    by_cases hdeep : g.links.length < dep i
    · have hnil := childTargets_nil_of_deep ht hdeep
      have hsub : subtreeIds g.links f i = [i] := by
        cases f with
        | zero => rfl
        | succ m => simp [subtreeIds, hnil]
      rw [hsub, List.mem_singleton]
      constructor
      · rintro rfl; exact FReach.refl _
      · intro h
        rcases freach_head h with rfl | ⟨d, hd, _⟩
        · rfl
        · rw [hnil] at hd; exact absurd hd (List.not_mem_nil d)
    · have hn1 : 1 ≤ n := by omega
      obtain ⟨m, rfl⟩ : ∃ m, f = m + 1 := ⟨f - 1, by omega⟩
      simp only [subtreeIds, List.mem_cons, List.mem_flatMap]
      constructor
      · rintro (rfl | ⟨c, hc, htc⟩)
        · exact FReach.refl _
        · have hdc := ht.child_dep hc
          have hrec := (ih (g.links.length + 1 - dep c) (by omega) c rfl m
            (by omega) t).1 htc
          exact freach_trans (FReach.tail (FReach.refl i) hc) hrec
      · intro h
        rcases freach_head h with rfl | ⟨c, hc, hct⟩
        · exact Or.inl rfl
        · have hdc := ht.child_dep hc
          exact Or.inr ⟨c, hc, (ih (g.links.length + 1 - dep c) (by omega) c rfl m
            (by omega) t).2 hct⟩

lemma IsTree.reach_mem_ids {g : GraphData} {dep : String → Nat} (ht : IsTree g dep)
    {i t : String} (hi : i ∈ nodeIds g) (h : Reach g.links i t) : t ∈ nodeIds g := by
  cases h with
  | refl => exact hi
  | tail hab hc => exact ht.child_mem_ids hc

/-! Path-to-root structure lemmas used for disjoint subtrees. -/

lemma chain_mem_sub {g : GraphData} {dep : String → Nat} (ht : IsTree g dep) :
    ∀ d i, dep i = d → ∀ a, a ∈ chainToRoot g.links i →
      a = i ∨ a ∈ nodeIds g := by
  intro d
  induction d using Nat.strong_induction_on with
  | _ d ih =>
    intro i hd a ha
    cases hp : parentOf g.links i with
    | none =>
      rw [chainToRoot_of_parent_none hp, List.mem_singleton] at ha
      exact Or.inl ha
    | some p =>
      rw [chainToRoot_cons ht hp] at ha
      rcases List.mem_cons.1 ha with rfl | h2
      · exact Or.inl rfl
      · have hdp := ht.parentOf_dep hp
        rcases parentOf_link hp with ⟨l, hl, _, hs⟩
        rcases ih (dep p) (by omega) p rfl a h2 with rfl | h3
        · exact Or.inr (hs ▸ ht.srcMem l hl)
        · exact Or.inr h3

lemma chain_suffix {g : GraphData} {dep : String → Nat} (ht : IsTree g dep) :
    ∀ d i, dep i = d → ∀ a, a ∈ chainToRoot g.links i →
      chainToRoot g.links a <:+ chainToRoot g.links i := by
  intro d
  induction d using Nat.strong_induction_on with
  | _ d ih =>
    intro i hd a ha
    cases hp : parentOf g.links i with
    | none =>
      rw [chainToRoot_of_parent_none hp, List.mem_singleton] at ha
      rw [ha]
    | some p =>
      rw [chainToRoot_cons ht hp] at ha ⊢
      rcases List.mem_cons.1 ha with rfl | h2
      · rw [← chainToRoot_cons ht hp]
      · have hdp := ht.parentOf_dep hp
        exact (ih (dep p) (by omega) p rfl a h2).trans
          (List.suffix_cons i (chainToRoot g.links p))

lemma chain_length {g : GraphData} {dep : String → Nat} (ht : IsTree g dep) :
    ∀ d i, dep i = d → i ∈ nodeIds g →
      (chainToRoot g.links i).length = dep i + 1 := by
  intro d
  induction d using Nat.strong_induction_on with
  | _ d ih =>
    intro i hd hi
    cases hp : parentOf g.links i with
    | none =>
      rw [chainToRoot_of_parent_none hp]
      have hdep0 : dep i = 0 := by
        by_contra hne
        cases ht.reachAll i hi with
        | refl => rw [ht.depRoot] at hne; exact hne rfl
        | tail hab hc =>
          rcases mem_childLinkTargets.1 hc with ⟨l, hl, hs, htg⟩
          have := ht.parentOf_eq hl
          rw [htg, hs] at this
          rw [this] at hp
          exact Option.noConfusion hp
      rw [hdep0]
      rfl
    | some p =>
      rw [chainToRoot_cons ht hp]
      have hdp := ht.parentOf_dep hp
      rcases parentOf_link hp with ⟨l, hl, _, hs⟩
      have hpids : p ∈ nodeIds g := hs ▸ ht.srcMem l hl
      rw [List.length_cons, ih (dep p) (by omega) p rfl hpids]
      omega

lemma chain_head (links : List GLink) (i : String) :
    (chainToRoot links i).head? = some i := by
  unfold chainToRoot
  cases links.length with
  | zero => rfl
  | succ n => rfl

lemma chain_ancestor_unique {g : GraphData} {dep : String → Nat}
    (ht : IsTree g dep) {t a b : String} (htid : t ∈ nodeIds g)
    (ha : a ∈ chainToRoot g.links t) (hb : b ∈ chainToRoot g.links t)
    (hdep : dep a = dep b) : a = b := by
  have haid : a ∈ nodeIds g := by
    rcases chain_mem_sub ht (dep t) t rfl a ha with rfl | h
    · exact htid
    · exact h
  have hbid : b ∈ nodeIds g := by
    rcases chain_mem_sub ht (dep t) t rfl b hb with rfl | h
    · exact htid
    · exact h
  have hsa := chain_suffix ht (dep t) t rfl a ha
  have hsb := chain_suffix ht (dep t) t rfl b hb
  have hla := chain_length ht (dep a) a rfl haid
  have hlb := chain_length ht (dep b) b rfl hbid
  have hchain : chainToRoot g.links a = chainToRoot g.links b := by
    rcases List.suffix_or_suffix_of_suffix hsa hsb with h | h
    · exact h.eq_of_length (by omega)
    · exact (h.eq_of_length (by omega)).symm
  have := chain_head g.links a
  rw [hchain, chain_head] at this
  exact (Option.some_inj.1 this).symm

/-- Two distinct ids at the same depth have disjoint descendant sets. -/
lemma reach_disjoint {g : GraphData} {dep : String → Nat} (ht : IsTree g dep)
    {t c1 c2 : String} (htid : t ∈ nodeIds g)
    (h1 : Reach g.links c1 t) (h2 : Reach g.links c2 t)
    (hd : dep c1 = dep c2) : c1 = c2 :=
  chain_ancestor_unique ht htid ((reach_iff_mem_chain ht c1 t).1 h1)
    ((reach_iff_mem_chain ht c2 t).1 h2) hd

lemma subtreeIds_nodup {g : GraphData} {dep : String → Nat} (ht : IsTree g dep) :
    ∀ n i, g.links.length + 1 - dep i = n → i ∈ nodeIds g → ∀ f, n ≤ f →
      (subtreeIds g.links f i).Nodup := by
  intro n
  induction n using Nat.strong_induction_on with
  | _ n ih =>
    intro i hn hiid f hf
    by_cases hdeep : g.links.length < dep i
    · have hnil := childTargets_nil_of_deep ht hdeep
      have hsub : subtreeIds g.links f i = [i] := by
        cases f with
        | zero => rfl
        | succ m => simp [subtreeIds, hnil]
      rw [hsub]
      exact List.nodup_singleton _
    · have hn1 : 1 ≤ n := by omega
      obtain ⟨m, rfl⟩ : ∃ m, f = m + 1 := ⟨f - 1, by omega⟩
      simp only [subtreeIds]
      rw [List.nodup_cons]
      constructor
      · intro hmem
        rcases List.mem_flatMap.1 hmem with ⟨c, hc, hic⟩
        have hdc := ht.child_dep hc
        have hreach := (mem_subtreeIds ht (g.links.length + 1 - dep c) c rfl m
          (by omega) i).1 hic
        have := freach_dep_le (fun a b hb => ht.child_dep hb) hreach
        omega
      · rw [List.nodup_flatMap]
        constructor
        · intro c hc
          have hdc := ht.child_dep hc
          exact ih (g.links.length + 1 - dep c) (by omega) c rfl
            (ht.child_mem_ids hc) m (by omega)
        · apply (ht.childTargets_nodup i).pairwise_of_forall_ne
          intro c1 hc1 c2 hc2 hne
          simp only [Function.onFun, List.Disjoint]
          intro t ht1 ht2
          have hd1 := ht.child_dep hc1
          have hd2 := ht.child_dep hc2
          have hr1 := (mem_subtreeIds ht (g.links.length + 1 - dep c1) c1 rfl m
            (by omega) t).1 ht1
          have hr2 := (mem_subtreeIds ht (g.links.length + 1 - dep c2) c2 rfl m
            (by omega) t).1 ht2
          have htid : t ∈ nodeIds g :=
            ht.reach_mem_ids (ht.child_mem_ids hc1) hr1
          exact hne (reach_disjoint ht htid hr1 hr2 (by omega))

/-- C8.  On a tree-shaped visible graph the weight satisfies
weight(node) = 1 + sum of the weights of its children, and the weight
of root is the total node count. -/
theorem c8_nodeWeights_spec {g : GraphData} {dep : String → Nat}
    (ht : IsTree g dep) :
    (∀ i, weightOf g i =
      1 + ((childLinkTargets g.links i).map (weightOf g)).sum) ∧
    weightOf g "root" = g.nodes.length := by
  constructor
  · intro i
    have hmap : List.map (getWeight g.links g.links.length)
        (childLinkTargets g.links i) =
        List.map (weightOf g) (childLinkTargets g.links i) := by
      apply List.map_congr_left
      intro t htm
      have hdt := ht.child_dep htm
      exact getWeight_stable ht (g.links.length + 1 - dep t) t _ _ rfl
        (by omega) (by omega)
    have hstep : weightOf g i = 1 + (List.map (getWeight g.links g.links.length)
        (childLinkTargets g.links i)).sum := rfl
    rw [hstep, hmap]
  · have hlen := subtreeIds_length g.links (g.links.length + 1) "root"
    have hmem := mem_subtreeIds ht (g.links.length + 1 - dep "root") "root" rfl
      (g.links.length + 1) (by omega)
    have hnodup := subtreeIds_nodup ht (g.links.length + 1 - dep "root") "root"
      rfl ht.rootMem (g.links.length + 1) (by omega)
    have hperm : (subtreeIds g.links (g.links.length + 1) "root").Perm (nodeIds g) := by
      rw [List.perm_ext_iff_of_nodup hnodup ht.nodupIds]
      intro a
      rw [hmem a]
      constructor
      · intro h; exact ht.reach_mem_ids ht.rootMem h
      · intro h; exact ht.reachAll a h
    have hlen2 := hperm.length_eq
    unfold weightOf
    rw [← hlen, hlen2]
    simp [nodeIds]

theorem c8_nodeWeights_spec_witness :
    IsTree gW1 depW1 ∧ weightOf gW1 "root" = gW1.nodes.length :=
  ⟨gW1_tree, (c8_nodeWeights_spec gW1_tree).2⟩

/-! ## C9: query service failure recovered by the local fallback -/

/-- Number of documents with a positive keyword plus recency relevance
score. -/
def matchCount (documents : List Document) (query : String) (nowDays : ℤ) : Nat :=
  (documents.filter (fun d => decide (0 < calculateRelevance d query nowDays))).length

lemma mem_scoredDocs {documents : List Document} {query : String} {nowDays : ℤ}
    {p : Document × ℚ} (hp : p ∈ scoredDocs documents query nowDays) :
    p.1 ∈ documents ∧ 0 < p.2 := by
  unfold scoredDocs at hp
  have h2 := (List.perm_insertionSort _ _).mem_iff.1 hp
  rw [List.mem_filter] at h2
  rcases h2 with ⟨hmap, hpos⟩
  rcases List.mem_map.1 hmap with ⟨d, hd, hde⟩
  constructor
  · rw [← hde]; exact hd
  · simpa using hpos

lemma scoredDocs_length (documents : List Document) (query : String)
    (nowDays : ℤ) :
    (scoredDocs documents query nowDays).length =
      matchCount documents query nowDays := by
  unfold scoredDocs matchCount
  rw [(List.perm_insertionSort _ _).length_eq, List.filter_map, List.length_map]
  rfl

lemma enum_map_project {α β : Type} (l : List α) (f : Nat × α → β)
    (gid : β → String) (gid0 : α → String)
    (h : ∀ p : Nat × α, gid (f p) = gid0 p.2) :
    (l.enum.map f).map gid = l.map gid0 := by
  rw [List.map_map]
  have h1 : (gid ∘ f) = fun p : Nat × α => gid0 p.2 := funext h
  rw [h1]
  rw [show (fun p : Nat × α => gid0 p.2) = gid0 ∘ Prod.snd from rfl]
  rw [← List.map_map, List.enum_map_snd]

/-- C9.  When the query service throws, the synchronously available
fallback graph is applied: root gains exactly min(6, matchCount)
children, namely the top ranked documents of the local
keyword-plus-recency scoring in rank order, every non-root node is a
DOCUMENT node, and each is linked from root; no error escapes (the
fallback is a total function). -/
theorem c9_fallback_spec (query : String) (mode : LayoutMode) (g : GraphData)
    (documents : List Document) (nowDays : ℤ)
    (hnr : ∀ d ∈ documents, d.id ≠ "root") :
    (applySearchResult query mode g (fallbackGraph query documents nowDays)).nodes.map
        (fun n => n.id) =
      "root" :: ((scoredDocs documents query nowDays).take 6).map (fun p => p.1.id) ∧
    (applySearchResult query mode g (fallbackGraph query documents nowDays)).nodes.length =
      min 6 (matchCount documents query nowDays) + 1 ∧
    (applySearchResult query mode g (fallbackGraph query documents nowDays)).links.map
        (fun l => (l.source, l.target)) =
      ((scoredDocs documents query nowDays).take 6).map (fun p => ("root", p.1.id)) ∧
    (applySearchResult query mode g (fallbackGraph query documents nowDays)).links.length =
      min 6 (matchCount documents query nowDays) ∧
    (∀ n ∈ (applySearchResult query mode g
        (fallbackGraph query documents nowDays)).nodes,
      n.id ≠ "root" → n.kind = NodeKind.document ∧
        ∃ l ∈ (applySearchResult query mode g
            (fallbackGraph query documents nowDays)).links,
          l.source = "root" ∧ l.target = n.id) := by
  have htopdocs : ∀ d ∈ ((scoredDocs documents query nowDays).take 6).map
      (fun p => p.1), d ∈ documents := by
    intro d hd
    rcases List.mem_map.1 hd with ⟨p, hp, hpe⟩
    have hps : p ∈ scoredDocs documents query nowDays :=
      (List.take_sublist 6 _).subset hp
    rw [← hpe]
    exact (mem_scoredDocs hps).1
  have hlen_top : (((scoredDocs documents query nowDays).take 6).map
      (fun p => p.1)).length = min 6 (matchCount documents query nowDays) := by
    rw [List.length_map, List.length_take, scoredDocs_length]
  have hfn : (fallbackGraph query documents nowDays).nodes =
      (((scoredDocs documents query nowDays).take 6).map (fun p => p.1)).map
        (fun d =>
          ({ id := d.id, name := d.title, kind := NodeKind.document, val := 10,
             description := some (String.mk (d.content.data.take 50 ++ "...".data)) }
           : GNode)) := rfl
  have hfl : (fallbackGraph query documents nowDays).links =
      (((scoredDocs documents query nowDays).take 6).map (fun p => p.1)).map
        (fun d => ({ source := "root", target := d.id, value := 1 } : GLink)) := rfl
  have hfilter : (fallbackGraph query documents nowDays).nodes.filter
      (fun n => n.id != "root") = (fallbackGraph query documents nowDays).nodes := by
    rw [List.filter_eq_self]
    intro n hn
    rw [hfn] at hn
    rcases List.mem_map.1 hn with ⟨d, hd, hde⟩
    have hid : n.id = d.id := by rw [← hde]
    rw [bne_iff_ne, hid]
    exact hnr d (htopdocs d hd)
  have hchild_ids : (searchChildNodes (fallbackGraph query documents nowDays)).map
      (fun n => n.id) =
      (((scoredDocs documents query nowDays).take 6).map (fun p => p.1)).map
        (fun d => d.id) := by
    unfold searchChildNodes
    rw [hfilter, hfn]
    rw [enum_map_project _ searchRecolor (fun n : GNode => n.id)
      (fun n : GNode => n.id) (fun p => rfl)]
    rw [List.map_map]
    exact List.map_congr_left (fun d _ => rfl)
  have hnode_ids : (applySearchResult query mode g
      (fallbackGraph query documents nowDays)).nodes.map (fun n => n.id) =
      "root" :: (((scoredDocs documents query nowDays).take 6).map (fun p => p.1)).map
        (fun d => d.id) := by
    simp only [applySearchResult, List.map_cons]
    rw [hchild_ids]
    rfl
  have hlinks : (applySearchResult query mode g
      (fallbackGraph query documents nowDays)).links =
      (((scoredDocs documents query nowDays).take 6).map (fun p => p.1)).map
        (fun d => ({ source := "root", target := d.id, value := 1 } : GLink)) := by
    simp only [applySearchResult]
    have hraw : searchLinksRaw (fallbackGraph query documents nowDays) =
        (((scoredDocs documents query nowDays).take 6).map (fun p => p.1)).map
          (fun d => ({ source := "root", target := d.id, value := 1 } : GLink)) := by
      unfold searchLinksRaw
      rw [hfl, List.map_map]
      apply List.map_congr_left
      intro d _
      simp
    rw [hraw, List.filter_eq_self]
    intro l hl
    rcases List.mem_map.1 hl with ⟨d, hd, hde⟩
    have hsrc : l.source = "root" := by rw [← hde]
    have htgt : l.target = d.id := by rw [← hde]
    simp only [List.map_cons, Bool.and_eq_true, decide_eq_true_eq, List.mem_cons]
    constructor
    · exact Or.inl (hsrc.trans rfl)
    · refine Or.inr ?_
      rw [htgt, hchild_ids]
      exact List.mem_map_of_mem _ hd
  refine ⟨?_, ?_, ?_, ?_, ?_⟩
  · rw [hnode_ids, List.map_map]
    rfl
  · have h1 := congrArg List.length hnode_ids
    simp only [List.length_map, List.length_cons] at h1
    rw [h1]
    simp only [List.length_take, scoredDocs_length]
  · rw [hlinks, List.map_map, List.map_map]
    rfl
  · rw [hlinks, List.length_map, List.length_map, List.length_take,
      scoredDocs_length]
  · intro n hn hnroot
    have hn2 : n ∈ (searchRootNode query mode g) ::
        searchChildNodes (fallbackGraph query documents nowDays) := hn
    rcases List.mem_cons.1 hn2 with rfl | hmem
    · exact absurd rfl hnroot
    · unfold searchChildNodes at hmem
      rw [hfilter, hfn] at hmem
      rcases List.mem_map.1 hmem with ⟨⟨j, m⟩, hjm, hme⟩
      have hm2 : m ∈ (((scoredDocs documents query nowDays).take 6).map
          (fun p => p.1)).map
          (fun d =>
            ({ id := d.id, name := d.title, kind := NodeKind.document, val := 10,
               description := some (String.mk (d.content.data.take 50 ++ "...".data)) }
             : GNode)) := by
        have := List.mem_enum_iff_getElem?.1 hjm
        exact List.getElem?_mem this
      rcases List.mem_map.1 hm2 with ⟨d, hd, hde⟩
      have hkind : n.kind = NodeKind.document := by
        rw [← hme]
        show m.kind = NodeKind.document
        rw [← hde]
      have hnid : n.id = d.id := by
        rw [← hme]
        show m.id = d.id
        rw [← hde]
      refine ⟨hkind, ⟨{ source := "root", target := d.id, value := 1 }, ?_, rfl, hnid.symm⟩⟩
      rw [hlinks]
      exact List.mem_map_of_mem _ hd

def docsC9 : List Document :=
  [{ id := "d1", title := "alpha report", content := "alpha beta",
     dateDays := 0, tags := ["alpha"] }]

theorem c9_fallback_spec_witness :
    (applySearchResult "alpha" LayoutMode.spider gW1
        (fallbackGraph "alpha" docsC9 0)).nodes.length =
      min 6 (matchCount docsC9 "alpha" 0) + 1 :=
  (c9_fallback_spec "alpha" LayoutMode.spider gW1 docsC9 0 (by decide)).2.1

/-! ## C10: local search never reaches the query service -/

lemma find?_eq_head_filter {α : Type} (p : α → Bool) (l : List α) :
    l.find? p = (l.filter p).head? := by
  induction l with
  | nil => rfl
  | cons x xs ih =>
    by_cases hx : p x = true
    · rw [List.find?_cons_of_pos _ hx, List.filter_cons_of_pos hx]
      rfl
    · rw [List.find?_cons_of_neg _ hx, List.filter_cons_of_neg (by simpa using hx), ih]

lemma IsTree.filter_target_short {g : GraphData} {dep : String → Nat}
    (ht : IsTree g dep) (t : String) :
    (g.links.filter (fun l => l.target == t)).length ≤ 1 := by
  cases hf : g.links.filter (fun l => l.target == t) with
  | nil => simp
  | cons x xs =>
    cases xs with
    | nil => simp
    | cons y ys =>
      exfalso
      have hpair : (x :: y :: ys).Pairwise (fun l1 l2 : GLink => l1.target ≠ l2.target) := by
        rw [← hf]
        exact List.Pairwise.sublist (List.filter_sublist _) ht.uniqTarget
      have hxy : x.target ≠ y.target := (List.pairwise_cons.1 hpair).1 y
        (List.mem_cons_self _ _)
      have hx : x ∈ g.links.filter (fun l => l.target == t) := by
        rw [hf]; exact List.mem_cons_self _ _
      have hy : y ∈ g.links.filter (fun l => l.target == t) := by
        rw [hf]; exact List.mem_cons_of_mem _ (List.mem_cons_self _ _)
      have hxt := beq_iff_eq.1 (List.mem_filter.1 hx).2
      have hyt := beq_iff_eq.1 (List.mem_filter.1 hy).2
      exact hxy (hxt.trans hyt.symm)

lemma IsTree.parentOfLast_eq {g : GraphData} {dep : String → Nat}
    (ht : IsTree g dep) (t : String) :
    parentOfLast g.links t = parentOf g.links t := by
  unfold parentOfLast parentOf
  rw [find?_eq_head_filter]
  congr 1
  have hlen := ht.filter_target_short t
  cases hf : g.links.filter (fun l => l.target == t) with
  | nil => rfl
  | cons x xs =>
    rw [hf] at hlen
    cases xs with
    | nil => rfl
    | cons y ys => simp at hlen

lemma IsTree.dep_le_of_mem {g : GraphData} {dep : String → Nat}
    (ht : IsTree g dep) {i : String} (hi : i ∈ nodeIds g) :
    dep i ≤ g.links.length := by
  cases ht.reachAll i hi with
  | refl => rw [ht.depRoot]; exact Nat.zero_le _
  | tail hab hc =>
    rcases mem_childLinkTargets.1 hc with ⟨l, hl, _, htg⟩
    have := ht.depLe l hl
    rwa [htg] at this

lemma chain_cons_self {links : List GLink} (i : String) :
    chainToRoot links i = i :: (chainToRoot links i).tail := by
  have hh := chain_head links i
  cases hc : chainToRoot links i with
  | nil => rw [hc] at hh; exact Option.noConfusion hh
  | cons x xs =>
    rw [hc] at hh
    have : x = i := Option.some_inj.1 hh.symm ▸ rfl
    simp only [List.tail_cons]
    rw [show x = i from by simpa using hh]

lemma climb_spec {g : GraphData} {dep : String → Nat} (ht : IsTree g dep)
    (hne : "" ∉ nodeIds g) :
    ∀ d curr, dep curr = d → curr ≠ "" → ∀ f, d ≤ f → ∀ acc x,
      x ∈ climb g.links f curr acc ↔
        x ∈ acc ∨ x ∈ (chainToRoot g.links curr).tail := by
  intro d
  induction d using Nat.strong_induction_on with
  | _ d ih =>
    intro curr hdc hcne f hdf acc x
    cases hp : parentOf g.links curr with
    | none =>
      have hchain : (chainToRoot g.links curr).tail = [] := by
        rw [chainToRoot_of_parent_none hp]
        rfl
      have hrun : climb g.links f curr acc = acc := by
        cases f with
        | zero => rfl
        | succ m =>
          simp only [climb, if_neg hcne, ht.parentOfLast_eq, hp]
      rw [hrun, hchain]
      simp
    | some p =>
      have hdep : dep curr = dep p + 1 := ht.parentOf_dep hp
      rcases parentOf_link hp with ⟨l, hl, _, hs⟩
      have hpids : p ∈ nodeIds g := hs ▸ ht.srcMem l hl
      have hpne : p ≠ "" := fun he => hne (he ▸ hpids)
      obtain ⟨m, rfl⟩ : ∃ m, f = m + 1 := ⟨f - 1, by omega⟩
      have hrun : climb g.links (m + 1) curr acc =
          climb g.links m p (if p ∈ acc then acc else acc ++ [p]) := by
        simp only [climb, if_neg hcne, ht.parentOfLast_eq, hp, if_neg hpne]
      rw [hrun, chainToRoot_cons ht hp, List.tail_cons,
        ih (dep p) (by omega) p rfl hpne m (by omega) _ x]
      rw [@chain_cons_self g.links p, List.mem_cons]
      by_cases hpacc : p ∈ acc
      · rw [if_pos hpacc]
        constructor
        · rintro (h | h)
          · exact Or.inl h
          · exact Or.inr (Or.inr h)
        · rintro (h | h | h)
          · exact Or.inl h
          · rw [h]; exact Or.inl hpacc
          · exact Or.inr h
      · rw [if_neg hpacc]
        constructor
        · rintro (h | h)
          · rcases List.mem_append.1 h with h2 | h2
            · exact Or.inl h2
            · exact Or.inr (Or.inl (List.mem_singleton.1 h2))
          · exact Or.inr (Or.inr h)
        · rintro (h | h | h)
          · exact Or.inl (List.mem_append_left _ h)
          · exact Or.inl (List.mem_append_right _ (List.mem_singleton.2 h))
          · exact Or.inr h

/-- C10.  On a tree-shaped graph, a non-blank query matched by some
existing node never reaches the query service: handleSearch resolves
locally, selecting a best-ranked matching node (exact name match before
name-prefix match before substring match) and flipping collapsed to
false on exactly the proper ancestors of that node, leaving the link
list, the node list shape and every other node field unchanged. -/
theorem c10_localSearch_spec {g : GraphData} {dep : String → Nat}
    (ht : IsTree g dep) (hne : "" ∉ nodeIds g) (query : String)
    (hq : query.data.all (fun c => c.isWhitespace) = false)
    (hm : ∃ n ∈ g.nodes, nodeMatches (lowerStr query) n = true) :
    ∃ best g2, handleSearchStep query g = SearchAction.localSel g2 best ∧
      best ∈ g.nodes ∧ nodeMatches (lowerStr query) best = true ∧
      (∀ m ∈ g.nodes, nodeMatches (lowerStr query) m = true →
        rankOf (lowerStr query) best ≤ rankOf (lowerStr query) m) ∧
      g2.links = g.links ∧
      g2.nodes = g.nodes.map (fun n =>
        if n.id ∈ (chainToRoot g.links best.id).tail
        then { n with collapsed := false } else n) ∧
      (∀ q2, handleSearchStep query g ≠ SearchAction.service q2) := by
  have hperm := List.perm_insertionSort
    (fun a b : GNode => rankOf (lowerStr query) a ≤ rankOf (lowerStr query) b)
    (g.nodes.filter (nodeMatches (lowerStr query)))
  haveI hTot : IsTotal GNode
      (fun a b : GNode => rankOf (lowerStr query) a ≤ rankOf (lowerStr query) b) :=
    ⟨fun a b => Nat.le_total _ _⟩
  haveI hTrans : IsTrans GNode
      (fun a b : GNode => rankOf (lowerStr query) a ≤ rankOf (lowerStr query) b) :=
    ⟨fun _ _ _ => Nat.le_trans⟩
  have hsortd := List.sorted_insertionSort
    (fun a b : GNode => rankOf (lowerStr query) a ≤ rankOf (lowerStr query) b)
    (g.nodes.filter (nodeMatches (lowerStr query)))
  obtain ⟨best, rest, hbr⟩ : ∃ b r, List.insertionSort
      (fun a b : GNode => rankOf (lowerStr query) a ≤ rankOf (lowerStr query) b)
      (g.nodes.filter (nodeMatches (lowerStr query))) = b :: r := by
    cases hs : List.insertionSort
        (fun a b : GNode => rankOf (lowerStr query) a ≤ rankOf (lowerStr query) b)
        (g.nodes.filter (nodeMatches (lowerStr query))) with
    | nil =>
      exfalso
      rcases hm with ⟨n, hn, hmt⟩
      have hmem : n ∈ g.nodes.filter (nodeMatches (lowerStr query)) :=
        List.mem_filter.2 ⟨hn, hmt⟩
      rw [hs] at hperm
      rw [hperm.symm.eq_nil] at hmem
      exact absurd hmem (List.not_mem_nil n)
    | cons b r => exact ⟨b, r, rfl⟩
  have hbest_mem : best ∈ g.nodes.filter (nodeMatches (lowerStr query)) := by
    have : best ∈ best :: rest := List.mem_cons_self _ _
    rw [← hbr] at this
    exact hperm.mem_iff.1 this
  have hbest_nodes : best ∈ g.nodes := (List.mem_filter.1 hbest_mem).1
  have hbest_matches : nodeMatches (lowerStr query) best = true :=
    (List.mem_filter.1 hbest_mem).2
  have hbest_id : best.id ∈ nodeIds g := List.mem_map_of_mem _ hbest_nodes
  have hbid_ne : best.id ≠ "" := fun he => hne (he ▸ hbest_id)
  have hclimb := climb_spec ht hne (dep best.id) best.id rfl hbid_ne
    (g.links.length + 1) (by have := ht.dep_le_of_mem hbest_id; omega) []
  have hstep : handleSearchStep query g = SearchAction.localSel
      { g with nodes := g.nodes.map (fun n =>
          if decide (n.id ∈ climb g.links (g.links.length + 1) best.id [])
          then { n with collapsed := false } else n) } best := by
    simp only [handleSearchStep]
    rw [if_neg (by rw [hq]; exact Bool.false_ne_true)]
    rw [hbr]
    rfl
  refine ⟨best, _, hstep, hbest_nodes, hbest_matches, ?_, rfl, ?_, ?_⟩
  · intro m hmn hmt
    have hms : m ∈ best :: rest := by
      rw [← hbr]
      exact hperm.mem_iff.2 (List.mem_filter.2 ⟨hmn, hmt⟩)
    rcases List.mem_cons.1 hms with rfl | hmr
    · exact Nat.le_refl _
    · rw [hbr] at hsortd
      exact List.rel_of_sorted_cons hsortd m hmr
  · simp only
    apply List.map_congr_left
    intro n _
    have hiff : (n.id ∈ climb g.links (g.links.length + 1) best.id []) ↔
        n.id ∈ (chainToRoot g.links best.id).tail := by
      rw [hclimb n.id]
      simp
    by_cases hcond : n.id ∈ (chainToRoot g.links best.id).tail
    · rw [if_pos (decide_eq_true (hiff.2 hcond)), if_pos hcond]
    · rw [if_neg ?_, if_neg hcond]
      rw [decide_eq_true_eq]
      exact fun h => hcond (hiff.1 h)
  · intro q2 hcontra
    rw [hstep] at hcontra
    exact SearchAction.noConfusion hcontra

/-! Concrete inputs for the C10 witness. -/

def gC10 : GraphData :=
  { nodes := [{ id := "root", name := "Root" },
              { id := "a", name := "Apple", collapsed := true },
              { id := "b", name := "Banana" }],
    links := [{ source := "root", target := "a" }, { source := "a", target := "b" }] }

lemma gC10_tree : IsTree gC10 depW1 := by
  refine ⟨?_, ?_, ?_, ?_, ?_, ?_, ?_, ?_, ?_⟩
  · decide
  · decide
  · decide
  · decide
  · decide
  · decide
  · decide
  · decide
  · intro i hi
    have h3 : i = "root" ∨ i = "a" ∨ i = "b" := by
      simpa [gC10, nodeIds] using hi
    rcases h3 with rfl | rfl | rfl
    · exact FReach.refl _
    · exact FReach.tail (FReach.refl "root")
        (show "a" ∈ childLinkTargets gC10.links "root" by decide)
    · exact FReach.tail
        (FReach.tail (FReach.refl "root")
          (show "a" ∈ childLinkTargets gC10.links "root" by decide))
        (show "b" ∈ childLinkTargets gC10.links "a" by decide)

theorem c10_localSearch_spec_witness :
    IsTree gC10 depW1 ∧
      ∃ best g2, handleSearchStep "banana" gC10 = SearchAction.localSel g2 best := by
  refine ⟨gC10_tree, ?_⟩
  obtain ⟨best, g2, hstep, -⟩ := c10_localSearch_spec gC10_tree (by decide) "banana"
    (by decide)
    ⟨{ id := "b", name := "Banana" }, by decide, by decide⟩
  exact ⟨best, g2, hstep⟩

/-! ## C4: side assignment -/

lemma lexLeB_total : ∀ k1 k2 : List Nat, lexLeB k1 k2 = true ∨ lexLeB k2 k1 = true := by
  intro k1
  induction k1 with
  | nil => intro k2; exact Or.inl rfl
  | cons a as ih =>
    intro k2
    cases k2 with
    | nil => exact Or.inr rfl
    | cons b bs =>
      simp only [lexLeB]
      by_cases hab : a < b
      · left
        rw [if_pos hab]
      · by_cases hba : b < a
        · right
          rw [if_pos hba]
        · have hab2 : a = b := by omega
          subst hab2
          simp only [if_neg (lt_irrefl a)]
          exact ih bs

lemma lexLeB_trans : ∀ k1 k2 k3 : List Nat, lexLeB k1 k2 = true →
    lexLeB k2 k3 = true → lexLeB k1 k3 = true := by
  intro k1
  induction k1 with
  | nil => intro k2 k3 _ _; rfl
  | cons a as ih =>
    intro k2 k3 h1 h2
    cases k2 with
    | nil => exact absurd h1 (by simp [lexLeB])
    | cons b bs =>
      cases k3 with
      | nil => exact absurd h2 (by simp [lexLeB])
      | cons c cs =>
        simp only [lexLeB] at h1 h2 ⊢
        by_cases hab : a < b
        · by_cases hbc : b < c
          · rw [if_pos (by omega : a < c)]
          · by_cases hcb : c < b
            · rw [if_neg hbc, if_pos hcb] at h2
              exact absurd h2 (by simp)
            · have : b = c := by omega
              rw [if_pos (by omega : a < c)]
        · by_cases hba : b < a
          · rw [if_neg hab, if_pos hba] at h1
            exact absurd h1 (by simp)
          · have hab2 : a = b := by omega
            subst hab2
            rw [if_neg (lt_irrefl a), if_neg (lt_irrefl a)] at h1
            by_cases hac : a < c
            · rw [if_pos hac]
            · by_cases hca : c < a
              · rw [if_neg hac, if_pos hca] at h2
                exact absurd h2 (by simp)
              · rw [if_neg hac, if_neg hca] at h2 ⊢
                exact ih bs cs h1 h2

lemma lexLeB_antisymm : ∀ k1 k2 : List Nat, lexLeB k1 k2 = true →
    lexLeB k2 k1 = true → k1 = k2 := by
  intro k1
  induction k1 with
  | nil =>
    intro k2 _ h2
    cases k2 with
    | nil => rfl
    | cons b bs => exact absurd h2 (by simp [lexLeB])
  | cons a as ih =>
    intro k2 h1 h2
    cases k2 with
    | nil => exact absurd h1 (by simp [lexLeB])
    | cons b bs =>
      simp only [lexLeB] at h1 h2
      by_cases hab : a < b
      · rw [if_neg (by omega : ¬ b < a), if_pos hab] at h2
        exact absurd h2 (by simp)
      · by_cases hba : b < a
        · rw [if_neg hab, if_pos hba] at h1
          exact absurd h1 (by simp)
        · have : a = b := by omega
          subst this
          rw [if_neg (lt_irrefl a), if_neg (lt_irrefl a)] at h1 h2
          rw [ih bs h1 h2]

lemma strKey_inj {a b : String} (h : strKey a = strKey b) : a = b := by
  unfold strKey at h
  have hinj : Function.Injective (fun c : Char => c.toNat) := by
    intro c1 c2 hc
    exact Char.ext (UInt32.ext hc)
  exact String.ext (List.map_injective_iff.2 hinj h)

lemma strLe_total (a b : String) : strLe a b ∨ strLe b a :=
  lexLeB_total _ _

lemma strLe_trans {a b c : String} (h1 : strLe a b) (h2 : strLe b c) : strLe a c :=
  lexLeB_trans _ _ _ h1 h2

lemma strLe_antisymm {a b : String} (h1 : strLe a b) (h2 : strLe b a) : a = b :=
  strKey_inj (lexLeB_antisymm _ _ h1 h2)

/-- Reachability in at least one step: through some child. -/
def ProperReach (links : List GLink) (c x : String) : Prop :=
  ∃ d ∈ childLinkTargets links c, Reach links d x

lemma reach_iff_proper {links : List GLink} {c x : String} :
    Reach links c x ↔ x = c ∨ ProperReach links c x := by
  constructor
  · intro h
    rcases freach_head h with rfl | ⟨d, hd, hr⟩
    · exact Or.inl rfl
    · exact Or.inr ⟨d, hd, hr⟩
  · rintro (rfl | ⟨d, hd, hr⟩)
    · exact FReach.refl _
    · exact freach_trans (FReach.tail (FReach.refl c) hd) hr

lemma propagate_foldl_aux {links : List GLink} (f : Nat) (side : Int) :
    ∀ (ds : List String),
      (∀ d ∈ ds, ∀ (m : SideMap) (x : String),
        (Reach links d x → propagate (childLinkTargets links) f d side
            (setSide m d side) x = some side) ∧
        (¬ Reach links d x → propagate (childLinkTargets links) f d side
            (setSide m d side) x = m x)) →
      ∀ (m : SideMap) (x : String),
        ((∃ d ∈ ds, Reach links d x) →
          ds.foldl (fun m2 c => propagate (childLinkTargets links) f c side
            (setSide m2 c side)) m x = some side) ∧
        (¬ (∃ d ∈ ds, Reach links d x) →
          ds.foldl (fun m2 c => propagate (childLinkTargets links) f c side
            (setSide m2 c side)) m x = m x) := by
  intro ds
  induction ds with
  | nil =>
    intro _ m x
    refine ⟨?_, fun _ => rfl⟩
    rintro ⟨d, hd, _⟩
    exact absurd hd (List.not_mem_nil d)
  | cons d ds ih =>
    intro hds m x
    have hd := hds d (List.mem_cons_self _ _)
    have hrest := ih (fun e he => hds e (List.mem_cons_of_mem _ he))
    simp only [List.foldl_cons]
    by_cases hex : ∃ e ∈ ds, Reach links e x
    · constructor
      · intro _
        exact (hrest _ x).1 hex
      · intro hno
        rcases hex with ⟨e, he, hre⟩
        exact absurd ⟨e, List.mem_cons_of_mem _ he, hre⟩ hno
    · have heq := (hrest (propagate (childLinkTargets links) f d side
        (setSide m d side)) x).2 hex
      by_cases hdx : Reach links d x
      · constructor
        · intro _
          rw [heq]
          exact (hd m x).1 hdx
        · intro hno
          exact absurd ⟨d, List.mem_cons_self _ _, hdx⟩ hno
      · constructor
        · rintro ⟨e, he, hre⟩
          rcases List.mem_cons.1 he with rfl | he2
          · exact absurd hre hdx
          · exact absurd ⟨e, he2, hre⟩ hex
        · intro _
          rw [heq]
          exact (hd m x).2 hdx

lemma propagate_spec {g : GraphData} {dep : String → Nat} (ht : IsTree g dep) :
    ∀ M c, g.links.length + 1 - dep c = M → ∀ f, M ≤ f →
      ∀ (side : Int) (m : SideMap) (x : String),
        (ProperReach g.links c x →
          propagate (childLinkTargets g.links) f c side m x = some side) ∧
        (¬ ProperReach g.links c x →
          propagate (childLinkTargets g.links) f c side m x = m x) := by
  intro M
  induction M using Nat.strong_induction_on with
  | _ M ih =>
    intro c hM f hf side m x
    by_cases hdeep : g.links.length < dep c
    · have hnil := childTargets_nil_of_deep ht hdeep
      have hrun : propagate (childLinkTargets g.links) f c side m = m := by
        cases f with
        | zero => rfl
        | succ k => simp [propagate, hnil]
      constructor
      · rintro ⟨d, hd, _⟩
        rw [hnil] at hd
        exact absurd hd (List.not_mem_nil d)
      · intro _
        rw [hrun]
    · have hM1 : 1 ≤ M := by omega
      obtain ⟨k, rfl⟩ : ∃ k, f = k + 1 := ⟨f - 1, by omega⟩
      have hds : ∀ d ∈ childLinkTargets g.links c, ∀ (m2 : SideMap) (x2 : String),
          (Reach g.links d x2 → propagate (childLinkTargets g.links) k d side
              (setSide m2 d side) x2 = some side) ∧
          (¬ Reach g.links d x2 → propagate (childLinkTargets g.links) k d side
              (setSide m2 d side) x2 = m2 x2) := by
        intro d hd m2 x2
        have hdd := ht.child_dep hd
        have hrec := ih (g.links.length + 1 - dep d) (by omega) d rfl k (by omega)
          side (setSide m2 d side) x2
        constructor
        · intro hr
          rcases reach_iff_proper.1 hr with he | hpr
          · by_cases hp : ProperReach g.links d x2
            · exact hrec.1 hp
            · rw [hrec.2 hp]
              simp [setSide, he]
          · exact hrec.1 hpr
        · intro hnr
          have hnp : ¬ ProperReach g.links d x2 :=
            fun hp => hnr (reach_iff_proper.2 (Or.inr hp))
          have hne2 : x2 ≠ d := fun he => hnr (he ▸ FReach.refl d)
          rw [hrec.2 hnp]
          simp [setSide, hne2]
      have hfold := @propagate_foldl_aux g.links k side
        (childLinkTargets g.links c) hds m x
      have hrun : propagate (childLinkTargets g.links) (k + 1) c side m =
          (childLinkTargets g.links c).foldl
            (fun m2 d => propagate (childLinkTargets g.links) k d side
              (setSide m2 d side)) m := rfl
      constructor
      · intro hpr
        rw [hrun]
        exact hfold.1 hpr
      · intro hnp
        rw [hrun]
        exact hfold.2 hnp

/-- The outer fold step of assignSides. -/
def sideStep (links : List GLink) (sideF : Nat → Int) (m : SideMap)
    (q : Nat × String) : SideMap :=
  propagate (childLinkTargets links) (links.length + 1) q.2 (sideF q.1)
    (setSide m q.2 (sideF q.1))

lemma outer_foldl_miss {g : GraphData} {dep : String → Nat} (ht : IsTree g dep)
    (sideF : Nat → Int) (x : String) :
    ∀ (L : List (Nat × String)) (m0 : SideMap),
      (∀ q ∈ L, ¬ Reach g.links q.2 x) →
      L.foldl (sideStep g.links sideF) m0 x = m0 x := by
  intro L
  induction L using List.reverseRecOn with
  | nil => intro m0 _; rfl
  | append_singleton L e ihL =>
    intro m0 hno
    have hne : ¬ Reach g.links e.2 x :=
      hno e (List.mem_append_right _ (List.mem_singleton.2 rfl))
    have hnp : ¬ ProperReach g.links e.2 x :=
      fun hp => hne (reach_iff_proper.2 (Or.inr hp))
    have hnx : x ≠ e.2 := fun he => hne (he ▸ FReach.refl _)
    rw [List.foldl_append, List.foldl_cons, List.foldl_nil]
    have h1 := (propagate_spec ht (g.links.length + 1 - dep e.2) e.2 rfl
      (g.links.length + 1) (by omega) (sideF e.1)
      (setSide (List.foldl (sideStep g.links sideF) m0 L) e.2 (sideF e.1)) x).2 hnp
    calc sideStep g.links sideF (List.foldl (sideStep g.links sideF) m0 L) e x
        = setSide (List.foldl (sideStep g.links sideF) m0 L) e.2 (sideF e.1) x := h1
      _ = List.foldl (sideStep g.links sideF) m0 L x := by simp [setSide, hnx]
      _ = m0 x := ihL m0 (fun q hq => hno q (List.mem_append_left _ hq))

lemma outer_foldl_hit {g : GraphData} {dep : String → Nat} (ht : IsTree g dep)
    (sideF : Nat → Int) (x : String) :
    ∀ (L : List (Nat × String)) (m0 : SideMap) (p : Nat × String),
      (∀ q ∈ L, q.2 ∈ childLinkTargets g.links "root") →
      (L.map (fun q => q.2)).Nodup →
      p ∈ L → Reach g.links p.2 x →
      L.foldl (sideStep g.links sideF) m0 x = some (sideF p.1) := by
  intro L
  induction L using List.reverseRecOn with
  | nil =>
    intro m0 p _ _ hp _
    exact absurd hp (List.not_mem_nil p)
  | append_singleton L e ihL =>
    intro m0 p hch hnodup hp hr
    rw [List.foldl_append, List.foldl_cons, List.foldl_nil]
    rcases List.mem_append.1 hp with hpL | hpe
    · have hche : e.2 ∈ childLinkTargets g.links "root" :=
        hch e (List.mem_append_right _ (List.mem_singleton.2 rfl))
      have hchp : p.2 ∈ childLinkTargets g.links "root" :=
        hch p (List.mem_append_left _ hpL)
      have hxid : x ∈ nodeIds g :=
        ht.reach_mem_ids (ht.child_mem_ids hchp) hr
      have hmapnd : (L.map (fun q => q.2) ++ [e].map (fun q => q.2)).Nodup := by
        rw [← List.map_append]
        exact hnodup
      have hne : ¬ Reach g.links e.2 x := by
        intro hre
        have hdepe := ht.child_dep hche
        have hdepp := ht.child_dep hchp
        have heqp : e.2 = p.2 :=
          reach_disjoint ht hxid hre hr (by omega)
        have hdisj := List.disjoint_of_nodup_append hmapnd
        have hmemL : p.2 ∈ L.map (fun q => q.2) :=
          List.mem_map_of_mem (fun q => q.2) hpL
        have hmemR : p.2 ∈ [e].map (fun q => q.2) := by
          simp [heqp.symm]
        exact hdisj hmemL hmemR
      have hnp : ¬ ProperReach g.links e.2 x :=
        fun hpr => hne (reach_iff_proper.2 (Or.inr hpr))
      have hnx : x ≠ e.2 := fun he => hne (he ▸ FReach.refl _)
      have h1 := (propagate_spec ht (g.links.length + 1 - dep e.2) e.2 rfl
        (g.links.length + 1) (by omega) (sideF e.1)
        (setSide (List.foldl (sideStep g.links sideF) m0 L) e.2 (sideF e.1)) x).2 hnp
      calc sideStep g.links sideF (List.foldl (sideStep g.links sideF) m0 L) e x
          = setSide (List.foldl (sideStep g.links sideF) m0 L) e.2 (sideF e.1) x := h1
        _ = List.foldl (sideStep g.links sideF) m0 L x := by simp [setSide, hnx]
        _ = some (sideF p.1) :=
            ihL m0 p (fun q hq => hch q (List.mem_append_left _ hq))
              hmapnd.of_append_left hpL hr
    · have hpe2 : p = e := List.mem_singleton.1 hpe
      subst hpe2
      rcases reach_iff_proper.1 hr with he | hpr
      · by_cases hprr : ProperReach g.links p.2 x
        · exact (propagate_spec ht (g.links.length + 1 - dep p.2) p.2 rfl
            (g.links.length + 1) (by omega) (sideF p.1)
            (setSide (List.foldl (sideStep g.links sideF) m0 L) p.2 (sideF p.1)) x).1 hprr
        · have h2 := (propagate_spec ht (g.links.length + 1 - dep p.2) p.2 rfl
            (g.links.length + 1) (by omega) (sideF p.1)
            (setSide (List.foldl (sideStep g.links sideF) m0 L) p.2 (sideF p.1)) x).2 hprr
          calc sideStep g.links sideF (List.foldl (sideStep g.links sideF) m0 L) p x
              = setSide (List.foldl (sideStep g.links sideF) m0 L) p.2 (sideF p.1) x := h2
            _ = some (sideF p.1) := by simp [setSide, he]
      · exact (propagate_spec ht (g.links.length + 1 - dep p.2) p.2 rfl
          (g.links.length + 1) (by omega) (sideF p.1)
          (setSide (List.foldl (sideStep g.links sideF) m0 L) p.2 (sideF p.1)) x).1 hpr

lemma childLinkTargets_perm {l1 l2 : List GLink} (h : l1.Perm l2) (s : String) :
    (childLinkTargets l1 s).Perm (childLinkTargets l2 s) :=
  (h.filter _).map _

lemma reach_perm {l1 l2 : List GLink} (h : l1.Perm l2) {a b : String}
    (hr : Reach l1 a b) : Reach l2 a b := by
  induction hr with
  | refl => exact FReach.refl _
  | tail hab hc ih =>
    exact FReach.tail ih ((childLinkTargets_perm h _).mem_iff.1 hc)

lemma isTree_perm {g : GraphData} {dep : String → Nat} (ht : IsTree g dep)
    {ls2 : List GLink} (hp : g.links.Perm ls2) :
    IsTree { nodes := g.nodes, links := ls2 } dep := by
  refine ⟨ht.rootMem, ht.nodupIds, ?_, ?_, ?_, ht.depRoot, ?_, ?_, ?_⟩
  · intro l hl
    exact ht.srcMem l (hp.mem_iff.2 hl)
  · intro l hl
    exact ht.tgtMem l (hp.mem_iff.2 hl)
  · exact (hp.pairwise_iff (fun hab => fun h => hab h.symm)).1 ht.uniqTarget
  · intro l hl
    exact ht.depLink l (hp.mem_iff.2 hl)
  · intro l hl
    have := ht.depLe l (hp.mem_iff.2 hl)
    calc dep l.target ≤ g.links.length := this
      _ = ls2.length := hp.length_eq
  · intro i hi
    exact reach_perm hp (ht.reachAll i hi)

lemma sortedRootChildren_perm {l1 l2 : List GLink} (h : l1.Perm l2) :
    sortedRootChildren l1 = sortedRootChildren l2 := by
  haveI hTot : IsTotal String strLe := ⟨strLe_total⟩
  haveI hTrans : IsTrans String strLe := ⟨fun _ _ _ => strLe_trans⟩
  haveI hAnti : IsAntisymm String strLe := ⟨fun _ _ => strLe_antisymm⟩
  exact List.eq_of_perm_of_sorted
    ((List.perm_insertionSort strLe _).trans
      ((childLinkTargets_perm h "root").trans
        (List.perm_insertionSort strLe _).symm))
    (List.sorted_insertionSort strLe _)
    (List.sorted_insertionSort strLe _)

lemma assignSides_eq (nodes : List GNode) (links : List GLink) :
    assignSides nodes links =
      (sortedRootChildren links).enum.foldl
        (sideStep links (fun i => if i % 2 = 0 then -1 else 1)) emptySideMap :=
  rfl

lemma sortedRootChildren_nodup {g : GraphData} {dep : String → Nat}
    (ht : IsTree g dep) : (sortedRootChildren g.links).Nodup :=
  ((List.perm_insertionSort strLe _).nodup_iff).2 (ht.childTargets_nodup "root")

lemma enum_snd_child {links : List GLink} {q : Nat × String}
    (hq : q ∈ (sortedRootChildren links).enum) :
    q.2 ∈ childLinkTargets links "root" := by
  have h1 := List.mem_enum_iff_getElem?.1 hq
  have h2 : q.2 ∈ sortedRootChildren links := List.getElem?_mem h1
  exact (List.perm_insertionSort strLe _).mem_iff.1 h2

lemma enum_snd_nodup {g : GraphData} {dep : String → Nat} (ht : IsTree g dep) :
    ((sortedRootChildren g.links).enum.map (fun q => q.2)).Nodup := by
  have h1 : (sortedRootChildren g.links).enum.map (fun q => q.2) =
      sortedRootChildren g.links := List.enum_map_snd _
  rw [h1]
  exact sortedRootChildren_nodup ht

def altSide (i : Nat) : Int := if i % 2 = 0 then -1 else 1

lemma assignSides_foldl (nodes : List GNode) (links : List GLink) :
    assignSides nodes links =
      (sortedRootChildren links).enum.foldl (sideStep links altSide)
        emptySideMap :=
  rfl

/-- C4: on a tree, assignSides is deterministic and order-independent: the
node array is ignored entirely, permuting the link array leaves the
resulting side map pointwise unchanged, the i-th direct child of root in
ascending id order is assigned -1 for even i and +1 for odd i, and every
descendant of a level-1 child is assigned that child's side. -/
theorem c4_assignSides_spec (g : GraphData) (dep : String → Nat)
    (ht : IsTree g dep) :
    (∀ ns2 : List GNode, assignSides ns2 g.links = assignSides g.nodes g.links) ∧
    (∀ ls2 : List GLink, g.links.Perm ls2 →
      ∀ x, assignSides g.nodes ls2 x = assignSides g.nodes g.links x) ∧
    (∀ i, ∀ hi : i < (sortedRootChildren g.links).length,
      assignSides g.nodes g.links ((sortedRootChildren g.links).get ⟨i, hi⟩) =
        some (if i % 2 = 0 then -1 else 1)) ∧
    (∀ c x, c ∈ childLinkTargets g.links "root" → Reach g.links c x →
      assignSides g.nodes g.links x = assignSides g.nodes g.links c) := by
  have hch1 : ∀ q ∈ (sortedRootChildren g.links).enum,
      q.2 ∈ childLinkTargets g.links "root" := fun q hq => enum_snd_child hq
  have hnd1 := enum_snd_nodup ht
  refine ⟨fun ns2 => rfl, ?_, ?_, ?_⟩
  · intro ls2 hp x
    have ht2 := isTree_perm ht hp
    have hsorteq : sortedRootChildren ls2 = sortedRootChildren g.links :=
      sortedRootChildren_perm hp.symm
    rw [assignSides_foldl, assignSides_foldl, hsorteq]
    have hch2 : ∀ q ∈ (sortedRootChildren g.links).enum,
        q.2 ∈ childLinkTargets ls2 "root" :=
      fun q hq => (childLinkTargets_perm hp "root").mem_iff.1 (enum_snd_child hq)
    by_cases hex : ∃ p ∈ (sortedRootChildren g.links).enum, Reach g.links p.2 x
    · obtain ⟨p, hpmem, hpr⟩ := hex
      have hA := outer_foldl_hit ht2 altSide x (sortedRootChildren g.links).enum
        emptySideMap p hch2 hnd1 hpmem (reach_perm hp hpr)
      have hB := outer_foldl_hit ht altSide x (sortedRootChildren g.links).enum
        emptySideMap p hch1 hnd1 hpmem hpr
      exact hA.trans hB.symm
    · have hA := outer_foldl_miss ht2 altSide x (sortedRootChildren g.links).enum
        emptySideMap
        (fun q hq hr => hex ⟨q, hq, reach_perm hp.symm hr⟩)
      have hB := outer_foldl_miss ht altSide x (sortedRootChildren g.links).enum
        emptySideMap (fun q hq hr => hex ⟨q, hq, hr⟩)
      exact hA.trans hB.symm
  · intro i hi
    rw [assignSides_foldl]
    have hmem : (i, (sortedRootChildren g.links).get ⟨i, hi⟩) ∈
        (sortedRootChildren g.links).enum := by
      rw [List.mem_enum_iff_getElem?, List.get_eq_getElem]
      exact List.getElem?_eq_getElem hi
    exact outer_foldl_hit ht altSide _ _ emptySideMap
      (i, (sortedRootChildren g.links).get ⟨i, hi⟩) hch1 hnd1 hmem
      (FReach.refl _)
  · intro c x hc hr
    have hcs : c ∈ sortedRootChildren g.links :=
      (List.perm_insertionSort strLe _).mem_iff.2 hc
    obtain ⟨n, hgn⟩ := List.mem_iff_get.1 hcs
    have hmem : (n.1, c) ∈ (sortedRootChildren g.links).enum := by
      rw [List.mem_enum_iff_getElem?]
      rw [← hgn, List.get_eq_getElem]
      exact List.getElem?_eq_getElem n.2
    rw [assignSides_foldl]
    have hA := outer_foldl_hit ht altSide x (sortedRootChildren g.links).enum
      emptySideMap (n.1, c) hch1 hnd1 hmem hr
    have hB := outer_foldl_hit ht altSide c (sortedRootChildren g.links).enum
      emptySideMap (n.1, c) hch1 hnd1 hmem (FReach.refl c)
    exact hA.trans hB.symm

/-- Witness for C4 on the concrete tree root -> a -> b. -/
theorem c4_assignSides_spec_witness :
    IsTree gW1 depW1 ∧
    assignSides [] gW1.links = assignSides gW1.nodes gW1.links ∧
    assignSides gW1.nodes gW1.links "a" = some (-1) ∧
    assignSides gW1.nodes gW1.links "b" = some (-1) := by
  have h := c4_assignSides_spec gW1 depW1 gW1_tree
  refine ⟨gW1_tree, h.1 [], ?_, ?_⟩
  · have h3 := h.2.2.1 0 (by decide)
    have hget : (sortedRootChildren gW1.links).get ⟨0, by decide⟩ = "a" := rfl
    rw [hget] at h3
    simpa using h3
  · have h4 := h.2.2.2 "a" "b" (by decide)
      (FReach.tail (FReach.refl "a")
        (show "b" ∈ childLinkTargets gW1.links "a" by decide))
    rw [h4]
    have h3 := h.2.2.1 0 (by decide)
    have hget : (sortedRootChildren gW1.links).get ⟨0, by decide⟩ = "a" := rfl
    rw [hget] at h3
    simpa using h3
